import Mathlib

/-!
Verification of the gollmkit credential rotation and key store engine.

Shallow embedding of the Go sources:
* `internal/config/config.go` — `APIKey`, `ProviderConfig`, `Config` and the
  candidate-list helpers `IsValid`, `CanUse`, `GetEnabledKeys`.
* `internal/auth/keystore.go` — `MemoryKeyStore` with its three maps
  (keys / usage / health), the usage ledger operations and the
  `KeyEncryptor` sealing layer.
* the key rotator (`KeyRotator.GetNextKey` and the five selection
  strategies, `getFallbackKey`, `updateLastUsed`).

Modelling conventions:
* Go `float64` cost values are modelled as exact rationals `ℚ`; the code
  only adds and compares costs, so no rounding behaviour is involved.
* Go `int`/`int64` counters are modelled as `Int` (no overflow is in play).
* Go `time.Time` is reduced to the two projections the sources consult:
  an absolute instant (`abs`, backing `Before`) and the day-of-month
  component (`day`, backing `Day()`).
* Go maps are modelled as association lists with `mapLookup` / `mapSet` /
  `mapErase`; a `nil` Go map corresponds to an absent provider entry.
* Store methods take the receiver and return the (possibly updated)
  receiver next to their result, mirroring Go methods on `*MemoryKeyStore`;
  read-only methods return the receiver unchanged.
* A Go runtime panic (index out of range on a slice) is made explicit as a
  dedicated error value rather than being conflated with a Go `error`
  return.
-/

namespace GoLLMKit

/-- Go `time.Time`, reduced to the projections used by the sources:
`abs` is the absolute instant (ordering, for `Before`), `day` the
day-of-month component returned by `Day()`. -/
structure GoTime where
  abs : Nat
  day : Nat
deriving DecidableEq, Repr

/-- Go `t.Before(u)`. -/
def GoTime.Before (t u : GoTime) : Bool := decide (t.abs < u.abs)

instance : Inhabited GoTime := ⟨⟨0, 0⟩⟩

instance {ε α : Type} [DecidableEq ε] [DecidableEq α] : DecidableEq (Except ε α) :=
  fun x y =>
    match x, y with
    | .ok a, .ok b =>
      if h : a = b then .isTrue (by rw [h])
      else .isFalse (by intro hh; cases hh; exact h rfl)
    | .error e, .error f =>
      if h : e = f then .isTrue (by rw [h])
      else .isFalse (by intro hh; cases hh; exact h rfl)
    | .ok _, .error _ => .isFalse (by intro hh; cases hh)
    | .error _, .ok _ => .isFalse (by intro hh; cases hh)

/-! ### Go map model (association lists) -/

/-- Lookup in a Go map, `m[k]` with its `ok` flag: `none` models both a
missing key and a `nil` map at the outer level. -/
def mapLookup {α : Type} : List (String × α) → String → Option α
  | [], _ => none
  | (k, v) :: rest, key => if k = key then some v else mapLookup rest key

/-- Go map assignment `m[k] = v` (replaces an existing entry in place,
otherwise appends). -/
def mapSet {α : Type} : List (String × α) → String → α → List (String × α)
  | [], key, v => [(key, v)]
  | (k, w) :: rest, key, v =>
    if k = key then (k, v) :: rest else (k, w) :: mapSet rest key v

/-- Go `delete(m, k)`. -/
def mapErase {α : Type} : List (String × α) → String → List (String × α)
  | [], _ => []
  | (k, w) :: rest, key => if k = key then rest else (k, w) :: mapErase rest key

/-! ### Configuration model (`internal/config/config.go`) -/

/-- The five `RotationStrategy` string constants. -/
def RotationRoundRobin : String := "round_robin"

def RotationLeastUsed : String := "least_used"

def RotationCostOptimized : String := "cost_optimized"

def RotationRandom : String := "random"

def RotationSingle : String := "single"

/-- `config.APIKey`.  The `LastUsed`, `UsageCount` and `CostUsed` fields are
the runtime-only struct fields of the config record (note: no code in the
repository ever writes them). -/
structure APIKey where
  Key : String
  Name : String
  RateLimit : Int
  CostLimit : ℚ
  Enabled : Bool
  LastUsed : GoTime
  UsageCount : Int
  CostUsed : ℚ
deriving DecidableEq, Repr

/-- `config.RotationConfig`. -/
structure RotationConfig where
  Strategy : String
  Interval : String
  HealthCheck : Bool
  FallbackEnabled : Bool
deriving DecidableEq, Repr

/-- `config.ProviderConfig` (the `Models` list is omitted: it is not
consulted by any operation embedded here). -/
structure ProviderConfig where
  APIKeys : List APIKey
  Rotation : RotationConfig
deriving DecidableEq, Repr

/-- `config.Config` (the `Global` section is omitted: it is not consulted
by any operation embedded here). -/
structure Config where
  Providers : List (String × ProviderConfig)
deriving DecidableEq, Repr

/-- `APIKey.IsValid`: enabled with a non-empty key and name. -/
def APIKey.IsValid (k : APIKey) : Bool :=
  k.Enabled && !(k.Key == "") && !(k.Name == "")

/-- `APIKey.CanUse`: valid, and the config record's own `CostUsed` field is
under a positive `CostLimit`. -/
def APIKey.CanUse (k : APIKey) : Bool :=
  if !k.IsValid then false
  else if decide (0 < k.CostLimit) && decide (k.CostLimit ≤ k.CostUsed) then false
  else true

/-- `ProviderConfig.GetEnabledKeys`: the keys passing `IsValid && CanUse`,
in configuration order. -/
def ProviderConfig.GetEnabledKeys (p : ProviderConfig) : List APIKey :=
  p.APIKeys.filter fun k => k.IsValid && k.CanUse

/-- `Config.GetProvider`. -/
def Config.GetProvider (c : Config) (name : String) : Option ProviderConfig :=
  mapLookup c.Providers name

/-! ### Key usage ledger (`internal/auth/keystore.go`) -/

/-- `auth.KeyUsage`. -/
structure KeyUsage where
  LastUsed : GoTime
  UsageCount : Int
  TokensUsed : Int
  CostUsed : ℚ
  DailyCost : ℚ
  ErrorCount : Int
  LastError : String
deriving DecidableEq, Repr

/-! ### Sealing layer (`KeyEncryptor`)

The Go implementation delegates to external collaborators: `crypto/aes` +
`crypto/cipher` (AES-GCM), `crypto/sha256` (key derivation),
`encoding/base64` and `crypto/rand` (nonce).  Per §6 of the specification
these are consumed through the narrow interface
`seal(plaintext) -> ciphertext`, `unseal(ciphertext) -> plaintext`, both
fallible.  Modelled from the spec: the AEAD core (`cipher.AEAD.Seal` /
`Open`) is an authenticated encryptor producing `body ++ tag` where the
tag authenticates key, nonce and body; the base64 codec is a bijection
between byte strings and their encodings, so the stored ciphertext is
identified with the byte list it encodes; the random nonce is passed as an
explicit parameter.  The repository's own glue (nonce prepending, the
minimum-length check, nonce/ciphertext splitting) is translated from the
source of `KeyEncryptor.Encrypt` / `KeyEncryptor.Decrypt`. -/

/-- Injective code of a byte list, used to build authentication tags. -/
def listCode : List Nat → Nat
  | [] => 0
  | a :: rest => Nat.pair a (listCode rest) + 1

/-- Go `[]byte(s)`. -/
def strBytes (s : String) : List Nat := s.data.map Char.toNat

/-- Go `string(bs)`. -/
def bytesStr (bs : List Nat) : String := String.mk (bs.map Char.ofNat)

/-- `auth.KeyEncryptor` (its 32-byte key; the SHA-256 derivation from the
passphrase in `NewKeyEncryptor` is an external hash and is not consulted
by any claim). -/
structure KeyEncryptor where
  key : List Nat
deriving DecidableEq, Repr

/-- Modelled from the spec: GCM nonce size (12 bytes). -/
def gcmNonceSize : Nat := 12

/-- Modelled from the spec: the AEAD authentication tag over key, nonce and
body (stands for the 16-byte GCM tag; kept as a single unbounded value). -/
def gcmTag (key nonce body : List Nat) : Nat :=
  Nat.pair (listCode key) (Nat.pair (listCode nonce) (listCode body))

/-- Modelled from the spec: `cipher.AEAD.Seal` — ciphertext is the body
followed by its authentication tag. -/
def gcmSeal (key nonce body : List Nat) : List Nat :=
  body ++ [gcmTag key nonce body]

/-- Modelled from the spec: `cipher.AEAD.Open` — succeeds exactly on a
body-plus-matching-tag layout. -/
def gcmOpen (key nonce data : List Nat) : Option (List Nat) :=
  match data.getLast? with
  | none => none
  | some tag =>
    let body := data.dropLast
    if tag = gcmTag key nonce body then some body else none

/-- `KeyEncryptor.Encrypt`: seal the plaintext with a fresh `nonce`
(passed explicitly; Go draws it from `crypto/rand`), prepending the nonce
to the GCM ciphertext.  The base64 encoding step is the identity on the
byte-list representation. -/
def KeyEncryptor.Encrypt (e : KeyEncryptor) (nonce : List Nat) (plaintext : String) :
    List Nat :=
  nonce ++ gcmSeal e.key nonce (strBytes plaintext)

/-- `KeyEncryptor.Decrypt`: reject inputs shorter than the nonce, split off
the nonce, open the remainder. -/
def KeyEncryptor.Decrypt (e : KeyEncryptor) (data : List Nat) : Except String String :=
  if data.length < gcmNonceSize then
    .error "ciphertext too short"
  else
    match gcmOpen e.key (data.take gcmNonceSize) (data.drop gcmNonceSize) with
    | some body => .ok (bytesStr body)
    | none => .error "cipher: message authentication failed"

/-! ### The in-memory key store (`MemoryKeyStore`) -/

/-- A stored key value: plain when no encryptor is configured, otherwise
the sealed blob (the byte list whose base64 encoding Go stores). -/
inductive StoredKey where
  | plain (s : String)
  | sealed (data : List Nat)
deriving DecidableEq, Repr

/-- `auth.MemoryKeyStore`: three provider-indexed maps plus the optional
encryptor.  The invariant that the three maps stay aligned is *proved*
below, not assumed. -/
structure MemoryKeyStore where
  keys : List (String × List (String × StoredKey))
  usage : List (String × List (String × KeyUsage))
  health : List (String × List (String × Bool))
  encryptor : Option KeyEncryptor
deriving DecidableEq, Repr

/-- `NewMemoryKeyStore` (the encryptor already built, or absent). -/
def NewMemoryKeyStore (enc : Option KeyEncryptor) : MemoryKeyStore :=
  { keys := [], usage := [], health := [], encryptor := enc }

/-- `MemoryKeyStore.StoreKey`: initialize the three provider maps together
when absent, seal the secret when an encryptor is configured, then write
the key entry, a zeroed usage record stamped `now`, and `health = true`.
`nonce` is the fresh random nonce the Go code draws inside `Encrypt`. -/
def MemoryKeyStore.StoreKey (m : MemoryKeyStore) (provider keyName key : String)
    (now : GoTime) (nonce : List Nat) : Except String Unit × MemoryKeyStore :=
  let m :=
    match mapLookup m.keys provider with
    | none =>
      { m with
        keys := mapSet m.keys provider []
        usage := mapSet m.usage provider []
        health := mapSet m.health provider [] }
    | some _ => m
  let storedKey : StoredKey :=
    match m.encryptor with
    | some e => .sealed (e.Encrypt nonce key)
    | none => .plain key
  let pkeys := (mapLookup m.keys provider).getD []
  let pusage := (mapLookup m.usage provider).getD []
  let phealth := (mapLookup m.health provider).getD []
  let freshUsage : KeyUsage :=
    { LastUsed := now, UsageCount := 0, TokensUsed := 0, CostUsed := 0
      DailyCost := 0, ErrorCount := 0, LastError := "" }
  (.ok (),
    { m with
      keys := mapSet m.keys provider (mapSet pkeys keyName storedKey)
      usage := mapSet m.usage provider (mapSet pusage keyName freshUsage)
      health := mapSet m.health provider (mapSet phealth keyName true) })

/-- `MemoryKeyStore.GetKey` (read-only): lookup and transparent
decryption. -/
def MemoryKeyStore.GetKey (m : MemoryKeyStore) (provider keyName : String) :
    Except String String × MemoryKeyStore :=
  match mapLookup m.keys provider with
  | none => (.error ("provider " ++ provider ++ " not found"), m)
  | some providerKeys =>
    match mapLookup providerKeys keyName with
    | none =>
      (.error ("key " ++ keyName ++ " not found for provider " ++ provider), m)
    | some stored =>
      match m.encryptor, stored with
      | some e, .sealed data => (e.Decrypt data, m)
      | some e, .plain s => (e.Decrypt (strBytes s), m)
      | none, .plain s => (.ok s, m)
      | none, .sealed _ => (.error "unexpected sealed value", m)

/-- `MemoryKeyStore.DeleteKey`: remove all three entries (Go `delete` on a
possibly-`nil` inner map is a no-op). -/
def MemoryKeyStore.DeleteKey (m : MemoryKeyStore) (provider keyName : String) :
    Except String Unit × MemoryKeyStore :=
  match mapLookup m.keys provider with
  | none => (.ok (), m)
  | some pkeys =>
    let musage :=
      match mapLookup m.usage provider with
      | none => m.usage
      | some pu => mapSet m.usage provider (mapErase pu keyName)
    let mhealth :=
      match mapLookup m.health provider with
      | none => m.health
      | some ph => mapSet m.health provider (mapErase ph keyName)
    (.ok (),
      { m with
        keys := mapSet m.keys provider (mapErase pkeys keyName)
        usage := musage
        health := mhealth })

/-- `MemoryKeyStore.IsHealthy` (read-only). -/
def MemoryKeyStore.IsHealthy (m : MemoryKeyStore) (provider keyName : String) :
    Except String Bool × MemoryKeyStore :=
  match mapLookup m.health provider with
  | none => (.error ("provider " ++ provider ++ " not found"), m)
  | some ph =>
    match mapLookup ph keyName with
    | none =>
      (.error ("key " ++ keyName ++ " not found for provider " ++ provider), m)
    | some healthy => (.ok healthy, m)

/-- `MemoryKeyStore.UpdateUsage`.  `now₁` and `now₂` are the two separate
`time.Now()` calls the Go body makes: the first is assigned to
`usage.LastUsed` *before* the daily-rollover comparison, the second is the
`now` the comparison reads. -/
def MemoryKeyStore.UpdateUsage (m : MemoryKeyStore) (provider keyName : String)
    (tokens : Int) (cost : ℚ) (now₁ now₂ : GoTime) :
    Except String Unit × MemoryKeyStore :=
  match mapLookup m.usage provider with
  | none => (.error ("provider " ++ provider ++ " not found"), m)
  | some pu =>
    match mapLookup pu keyName with
    | none =>
      (.error ("key " ++ keyName ++ " not found for provider " ++ provider), m)
    | some usage =>
      let usage :=
        { usage with
          LastUsed := now₁
          UsageCount := usage.UsageCount + 1
          TokensUsed := usage.TokensUsed + tokens
          CostUsed := usage.CostUsed + cost }
      let usage :=
        if usage.LastUsed.day ≠ now₂.day then
          { usage with DailyCost := cost }
        else
          { usage with DailyCost := usage.DailyCost + cost }
      (.ok (), { m with usage := mapSet m.usage provider (mapSet pu keyName usage) })

/-- `MemoryKeyStore.GetUsage` (read-only; returns a defensive copy, which
value semantics give for free). -/
def MemoryKeyStore.GetUsage (m : MemoryKeyStore) (provider keyName : String) :
    Except String KeyUsage × MemoryKeyStore :=
  match mapLookup m.usage provider with
  | none => (.error ("provider " ++ provider ++ " not found"), m)
  | some pu =>
    match mapLookup pu keyName with
    | none =>
      (.error ("key " ++ keyName ++ " not found for provider " ++ provider), m)
    | some usage => (.ok usage, m)

/-- `MemoryKeyStore.SetHealth`. -/
def MemoryKeyStore.SetHealth (m : MemoryKeyStore) (provider keyName : String)
    (healthy : Bool) : Except String Unit × MemoryKeyStore :=
  match mapLookup m.health provider with
  | none => (.error ("provider " ++ provider ++ " not found"), m)
  | some ph =>
    (.ok (), { m with health := mapSet m.health provider (mapSet ph keyName healthy) })

/-- `MemoryKeyStore.RecordError`: bump the error count, store the message,
flip health to `false` once the count exceeds 5.  (Writing to a `nil`
inner health map would panic in Go; that state is unreachable from the
store operations and surfaces here as an error value.) -/
def MemoryKeyStore.RecordError (m : MemoryKeyStore) (provider keyName errorMsg : String) :
    Except String Unit × MemoryKeyStore :=
  match mapLookup m.usage provider with
  | none => (.error ("provider " ++ provider ++ " not found"), m)
  | some pu =>
    match mapLookup pu keyName with
    | none =>
      (.error ("key " ++ keyName ++ " not found for provider " ++ provider), m)
    | some usage =>
      let usage :=
        { usage with ErrorCount := usage.ErrorCount + 1, LastError := errorMsg }
      let m := { m with usage := mapSet m.usage provider (mapSet pu keyName usage) }
      if 5 < usage.ErrorCount then
        match mapLookup m.health provider with
        | none => (.error "panic: assignment to entry in nil map", m)
        | some ph =>
          (.ok (), { m with health := mapSet m.health provider (mapSet ph keyName false) })
      else
        (.ok (), m)

/-! ### The key rotator (`KeyRotator`, `GetNextKey` and the strategies) -/

/-- `auth.KeyRotator`'s own mutable state: the per-provider last-used map
and the per-provider round-robin cursor.  (The config and key store are
passed explicitly; the `rand` source is modelled by an explicit choice
parameter to `GetNextKey`.) -/
structure KeyRotator where
  lastUsed : List (String × List (String × GoTime))
  rotationIdx : List (String × Nat)
deriving DecidableEq, Repr

/-- `NewKeyRotator`'s rotator state. -/
def NewKeyRotator : KeyRotator := { lastUsed := [], rotationIdx := [] }

/-- `auth.KeySelection`. -/
structure KeySelection where
  Provider : String
  KeyName : String
  Key : String
  RateLimit : Int
  CostLimit : ℚ
  UsageCount : Int
  LastUsed : GoTime
  Strategy : String
deriving DecidableEq, Repr

/-- The failure modes of `GetNextKey` and its helpers.  `indexOutOfRange`
is not a Go `error` value: it models the runtime panic of an
out-of-bounds slice access. -/
inductive RotErr where
  | providerNotFound
  | noEnabledKeys
  | selectionFailed (msg : String)
  | noSuitableKey
  | healthCheckFailed (msg : String)
  | unhealthyNoFallback (keyName : String)
  | noHealthyFallback
  | fallbackSelectionFailed
  | keyRetrievalFailed (msg : String)
  | indexOutOfRange (idx len : Nat)
deriving DecidableEq, Repr

/-- Outcome of `selectRoundRobin`: a key, the `nil` return on an empty
slice, or the panic of `keys[idx]` with `idx` out of bounds. -/
inductive SelResult where
  | picked (k : APIKey)
  | nilKey
  | panicIdx (idx len : Nat)
deriving DecidableEq, Repr

/-- `KeyRotator.selectRoundRobin`: read the provider's cursor (0 when
unset), advance it to `(idx + 1) mod len`, and index the candidate slice
at the *old* cursor — which panics when that cursor is at or beyond the
slice length. -/
def KeyRotator.selectRoundRobin (kr : KeyRotator) (provider : String)
    (keys : List APIKey) : SelResult × KeyRotator :=
  if keys.isEmpty then (.nilKey, kr)
  else
    let idx := (mapLookup kr.rotationIdx provider).getD 0
    let kr :=
      { kr with rotationIdx := mapSet kr.rotationIdx provider ((idx + 1) % keys.length) }
    match keys.get? idx with
    | some k => (.picked k, kr)
    | none => (.panicIdx idx keys.length, kr)

/-- The scan of `selectLeastUsed`: per candidate, a missing usage record
short-circuits the scan; otherwise the candidate wins when its request
count is strictly smaller, or equal with a strictly older last-used
time.  (Loop variables bind per iteration, as in Go 1.22.) -/
def leastUsedLoop (provider : String) :
    MemoryKeyStore → List APIKey → Option APIKey → Int → GoTime →
      Option APIKey × MemoryKeyStore
  | st, [], best, _, _ => (best, st)
  | st, k :: rest, best, minUsage, oldestLastUsed =>
    match st.GetUsage provider k.Name with
    | (.error _, st') => (some k, st')
    | (.ok usage, st') =>
      if decide (minUsage = -1) || decide (usage.UsageCount < minUsage) ||
          (decide (usage.UsageCount = minUsage) && usage.LastUsed.Before oldestLastUsed) then
        leastUsedLoop provider st' rest (some k) usage.UsageCount usage.LastUsed
      else
        leastUsedLoop provider st' rest best minUsage oldestLastUsed

/-- `KeyRotator.selectLeastUsed` (`minUsage` starts at the sentinel `-1`,
`oldestLastUsed` at `time.Now()`). -/
def selectLeastUsed (st : MemoryKeyStore) (provider : String) (keys : List APIKey)
    (now : GoTime) : Except String (Option APIKey) × MemoryKeyStore :=
  if keys.isEmpty then (.error "no keys available", st)
  else
    let (best, st') := leastUsedLoop provider st keys none (-1) now
    (.ok best, st')

/-- The scan of `selectCostOptimized`: a candidate with no usage record is
selected and the scan continues with `lowestCost` unchanged; a recorded
candidate is selected only when it beats `lowestCost` *and* is under its
own positive cost limit. -/
def costOptimizedLoop (provider : String) :
    MemoryKeyStore → List APIKey → Option APIKey → ℚ → Option APIKey × MemoryKeyStore
  | st, [], best, _ => (best, st)
  | st, k :: rest, best, lowestCost =>
    match st.GetUsage provider k.Name with
    | (.error _, st') => costOptimizedLoop provider st' rest (some k) lowestCost
    | (.ok usage, st') =>
      if (decide (lowestCost = -1) || decide (usage.DailyCost < lowestCost)) &&
          (decide (k.CostLimit ≤ 0) || decide (usage.DailyCost < k.CostLimit)) then
        costOptimizedLoop provider st' rest (some k) usage.DailyCost
      else
        costOptimizedLoop provider st' rest best lowestCost

/-- `KeyRotator.selectCostOptimized` (`lowestCost` starts at the sentinel
`-1`; an empty survivor means every key has exceeded its cost limit). -/
def selectCostOptimized (st : MemoryKeyStore) (provider : String)
    (keys : List APIKey) : Except String APIKey × MemoryKeyStore :=
  if keys.isEmpty then (.error "no keys available", st)
  else
    match costOptimizedLoop provider st keys none (-1) with
    | (none, st') => (.error "all keys have exceeded their cost limits", st')
    | (some k, st') => (.ok k, st')

/-- `KeyRotator.selectRandom`: `randChoice` models the draw of
`rand.Intn(len(keys))`, reduced modulo the candidate count. -/
def selectRandom (randChoice : Nat) (keys : List APIKey) : Option APIKey :=
  if keys.isEmpty then none else keys.get? (randChoice % keys.length)

/-- `KeyRotator.selectSingle`: the first candidate. -/
def selectSingle (keys : List APIKey) : Option APIKey := keys.head?

/-- A zero-valued `KeyUsage` stamped `now`, the default `GetNextKey`
builds when the store has no usage record. -/
def defaultUsage (now : GoTime) : KeyUsage :=
  { LastUsed := now, UsageCount := 0, TokensUsed := 0, CostUsed := 0
    DailyCost := 0, ErrorCount := 0, LastError := "" }

/-- `KeyRotator.updateLastUsed`. -/
def KeyRotator.updateLastUsed (kr : KeyRotator) (provider keyName : String)
    (now : GoTime) : KeyRotator :=
  let inner := (mapLookup kr.lastUsed provider).getD []
  { kr with lastUsed := mapSet kr.lastUsed provider (mapSet inner keyName now) }

/-- The closing steps of a successful selection (shared by `GetNextKey`'s
tail and `getFallbackKey`'s tail): fetch the key value, fetch the usage
snapshot (building the zeroed default when the store has none), stamp the
rotator's last-used map, assemble the `KeySelection` reporting the given
strategy. -/
def retrieveSelection (st : MemoryKeyStore) (kr : KeyRotator)
    (provider : String) (selectedKey : APIKey) (strategy : String) (now : GoTime) :
    Except RotErr KeySelection × MemoryKeyStore × KeyRotator :=
  match st.GetKey provider selectedKey.Name with
  | (.error msg, st₁) => (.error (.keyRetrievalFailed msg), st₁, kr)
  | (.ok keyValue, st₁) =>
    match st₁.GetUsage provider selectedKey.Name with
    | (usageRes, st₂) =>
      let usage := match usageRes with
        | .ok u => u
        | .error _ => defaultUsage now
      let kr₁ := kr.updateLastUsed provider selectedKey.Name now
      (Except.ok
        { Provider := provider, KeyName := selectedKey.Name, Key := keyValue
          RateLimit := selectedKey.RateLimit, CostLimit := selectedKey.CostLimit
          UsageCount := usage.UsageCount, LastUsed := usage.LastUsed
          Strategy := strategy },
        st₂, kr₁)

/-- The healthy-survivor filter of `getFallbackKey`: keep candidates other
than the excluded name whose health lookup returns `(true, nil)`. -/
def fallbackFilterLoop (provider excludeKey : String) :
    MemoryKeyStore → List APIKey → List APIKey → List APIKey × MemoryKeyStore
  | st, [], acc => (acc, st)
  | st, k :: rest, acc =>
    if k.Name == excludeKey then fallbackFilterLoop provider excludeKey st rest acc
    else
      match st.IsHealthy provider k.Name with
      | (.ok true, st') => fallbackFilterLoop provider excludeKey st' rest (acc ++ [k])
      | (.ok false, st') => fallbackFilterLoop provider excludeKey st' rest acc
      | (.error _, st') => fallbackFilterLoop provider excludeKey st' rest acc

/-- `KeyRotator.getFallbackKey`: filter to healthy survivors, re-select via
round-robin (with the provider's *shared* rotation cursor), fetch the key
value and usage snapshot, and stamp the rotator's last-used map.  The
returned selection always reports the `round_robin` strategy. -/
def KeyRotator.getFallbackKey (st : MemoryKeyStore) (kr : KeyRotator)
    (provider excludeKey : String) (keys : List APIKey) (now : GoTime) :
    Except RotErr KeySelection × MemoryKeyStore × KeyRotator :=
  let (fallbackKeys, st₁) := fallbackFilterLoop provider excludeKey st keys []
  if fallbackKeys.isEmpty then (.error .noHealthyFallback, st₁, kr)
  else
    match kr.selectRoundRobin provider fallbackKeys with
    | (.panicIdx i l, kr₁) => (.error (.indexOutOfRange i l), st₁, kr₁)
    | (.nilKey, kr₁) => (.error .fallbackSelectionFailed, st₁, kr₁)
    | (.picked selectedKey, kr₁) =>
      retrieveSelection st₁ kr₁ provider selectedKey RotationRoundRobin now

/-- Steps 3–4 of `GetNextKey`'s tail: optional health gate with fallback,
then key retrieval and assembly. -/
def finishSelection (st : MemoryKeyStore) (kr : KeyRotator)
    (providerConfig : ProviderConfig) (provider : String)
    (enabledKeys : List APIKey) (selectedKey : APIKey) (now : GoTime) :
    Except RotErr KeySelection × MemoryKeyStore × KeyRotator :=
  if providerConfig.Rotation.HealthCheck then
    match st.IsHealthy provider selectedKey.Name with
    | (.error msg, st₁) => (.error (.healthCheckFailed msg), st₁, kr)
    | (.ok true, st₁) =>
      retrieveSelection st₁ kr provider selectedKey providerConfig.Rotation.Strategy now
    | (.ok false, st₁) =>
      if providerConfig.Rotation.FallbackEnabled && decide (1 < enabledKeys.length) then
        KeyRotator.getFallbackKey st₁ kr provider selectedKey.Name enabledKeys now
      else (.error (.unhealthyNoFallback selectedKey.Name), st₁, kr)
  else retrieveSelection st kr provider selectedKey providerConfig.Rotation.Strategy now

/-- `KeyRotator.GetNextKey`: resolve the provider, compute the enabled
candidate list, dispatch on the rotation strategy (an unknown strategy
string falls through to round-robin, as in the Go `switch` default), then
run the health/fallback/retrieval tail.  `randChoice` models the rotator's
`rand` source, `now` the `time.Now()` calls of this invocation. -/
def KeyRotator.GetNextKey (cfg : Config) (st : MemoryKeyStore) (kr : KeyRotator)
    (provider : String) (randChoice : Nat) (now : GoTime) :
    Except RotErr KeySelection × MemoryKeyStore × KeyRotator :=
  match cfg.GetProvider provider with
  | none => (.error .providerNotFound, st, kr)
  | some providerConfig =>
    let enabledKeys := providerConfig.GetEnabledKeys
    if enabledKeys.isEmpty then (.error .noEnabledKeys, st, kr)
    else
      let strat := providerConfig.Rotation.Strategy
      if strat == RotationLeastUsed then
        match selectLeastUsed st provider enabledKeys now with
        | (.error msg, st₁) => (.error (.selectionFailed msg), st₁, kr)
        | (.ok none, st₁) => (.error .noSuitableKey, st₁, kr)
        | (.ok (some k), st₁) => finishSelection st₁ kr providerConfig provider enabledKeys k now
      else if strat == RotationCostOptimized then
        match selectCostOptimized st provider enabledKeys with
        | (.error msg, st₁) => (.error (.selectionFailed msg), st₁, kr)
        | (.ok k, st₁) => finishSelection st₁ kr providerConfig provider enabledKeys k now
      else if strat == RotationRandom then
        match selectRandom randChoice enabledKeys with
        | none => (.error .noSuitableKey, st, kr)
        | some k => finishSelection st kr providerConfig provider enabledKeys k now
      else if strat == RotationSingle then
        match selectSingle enabledKeys with
        | none => (.error .noSuitableKey, st, kr)
        | some k => finishSelection st kr providerConfig provider enabledKeys k now
      else
        match kr.selectRoundRobin provider enabledKeys with
        | (.panicIdx i l, kr₁) => (.error (.indexOutOfRange i l), st, kr₁)
        | (.nilKey, kr₁) => (.error .noSuitableKey, st, kr₁)
        | (.picked k, kr₁) => finishSelection st kr₁ providerConfig provider enabledKeys k now

/-! ### Basic lemmas on the map model -/

theorem mapLookup_mapSet_self {α : Type} (m : List (String × α)) (k : String) (v : α) :
    mapLookup (mapSet m k v) k = some v := by
  induction m with
  | nil => simp [mapSet, mapLookup]
  | cons hd tl ih =>
    obtain ⟨k', w⟩ := hd
    by_cases h : k' = k <;> simp [mapSet, mapLookup, h, ih]

theorem mapLookup_mapSet_ne {α : Type} (m : List (String × α)) (k k' : String) (v : α)
    (h : k ≠ k') : mapLookup (mapSet m k v) k' = mapLookup m k' := by
  induction m with
  | nil => simp [mapSet, mapLookup, h]
  | cons hd tl ih =>
    obtain ⟨a, w⟩ := hd
    by_cases ha : a = k
    · subst ha
      simp [mapSet, mapLookup, h, ih]
    · simp [mapSet, mapLookup, ha]
      by_cases ha' : a = k' <;> simp [ha', ih]

/-! ### Read-only store methods do not change the store -/

theorem GetUsage_snd (m : MemoryKeyStore) (p n : String) : (m.GetUsage p n).2 = m := by
  unfold MemoryKeyStore.GetUsage
  split
  · rfl
  · split <;> rfl

theorem GetKey_snd (m : MemoryKeyStore) (p n : String) : (m.GetKey p n).2 = m := by
  unfold MemoryKeyStore.GetKey
  split
  · rfl
  · split
    · rfl
    · split <;> rfl

theorem IsHealthy_snd (m : MemoryKeyStore) (p n : String) : (m.IsHealthy p n).2 = m := by
  unfold MemoryKeyStore.IsHealthy
  split
  · rfl
  · split <;> rfl

/-! ### Pure functional models of the selection scans

The scans only *read* usage and health through the store; the following
oracles project those reads, and the `..._eq` lemmas prove the threaded
loops equal their pure models with the store untouched. -/

/-- The usage record `GetUsage` reports for a name, if any. -/
def usageOf (st : MemoryKeyStore) (provider keyName : String) : Option KeyUsage :=
  match (st.GetUsage provider keyName).1 with
  | .ok u => some u
  | .error _ => none

/-- The health flag `IsHealthy` reports for a name, if any. -/
def healthyOf (st : MemoryKeyStore) (provider keyName : String) : Option Bool :=
  match (st.IsHealthy provider keyName).1 with
  | .ok b => some b
  | .error _ => none

/-- Pure model of `leastUsedLoop`. -/
def leastUsedPure (getU : String → Option KeyUsage) :
    List APIKey → Option APIKey → Int → GoTime → Option APIKey
  | [], best, _, _ => best
  | k :: rest, best, minUsage, oldestLastUsed =>
    match getU k.Name with
    | none => some k
    | some usage =>
      if decide (minUsage = -1) || decide (usage.UsageCount < minUsage) ||
          (decide (usage.UsageCount = minUsage) && usage.LastUsed.Before oldestLastUsed) then
        leastUsedPure getU rest (some k) usage.UsageCount usage.LastUsed
      else
        leastUsedPure getU rest best minUsage oldestLastUsed

/-- Pure model of `costOptimizedLoop`. -/
def costOptPure (getU : String → Option KeyUsage) :
    List APIKey → Option APIKey → ℚ → Option APIKey
  | [], best, _ => best
  | k :: rest, best, lowestCost =>
    match getU k.Name with
    | none => costOptPure getU rest (some k) lowestCost
    | some usage =>
      if (decide (lowestCost = -1) || decide (usage.DailyCost < lowestCost)) &&
          (decide (k.CostLimit ≤ 0) || decide (usage.DailyCost < k.CostLimit)) then
        costOptPure getU rest (some k) usage.DailyCost
      else
        costOptPure getU rest best lowestCost

/-- Pure model of `fallbackFilterLoop`. -/
def fallbackFilterPure (getH : String → Option Bool) (excludeKey : String) :
    List APIKey → List APIKey → List APIKey
  | [], acc => acc
  | k :: rest, acc =>
    if k.Name == excludeKey then fallbackFilterPure getH excludeKey rest acc
    else
      match getH k.Name with
      | some true => fallbackFilterPure getH excludeKey rest (acc ++ [k])
      | some false => fallbackFilterPure getH excludeKey rest acc
      | none => fallbackFilterPure getH excludeKey rest acc

theorem leastUsedLoop_eq (provider : String) (st : MemoryKeyStore) (keys : List APIKey)
    (best : Option APIKey) (minUsage : Int) (oldest : GoTime) :
    leastUsedLoop provider st keys best minUsage oldest
      = (leastUsedPure (usageOf st provider) keys best minUsage oldest, st) := by
  induction keys generalizing best minUsage oldest with
  | nil => rfl
  | cons k rest ih =>
    have hsnd := GetUsage_snd st provider k.Name
    rcases hp : st.GetUsage provider k.Name with ⟨res, st'⟩
    have hst : st' = st := by rw [← hsnd, hp]
    subst hst
    cases res with
    | error msg => simp only [leastUsedLoop, leastUsedPure, usageOf, hp]
    | ok usage =>
      simp only [leastUsedLoop, leastUsedPure, usageOf, hp]
      split <;> exact ih ..

theorem costOptimizedLoop_eq (provider : String) (st : MemoryKeyStore)
    (keys : List APIKey) (best : Option APIKey) (lowestCost : ℚ) :
    costOptimizedLoop provider st keys best lowestCost
      = (costOptPure (usageOf st provider) keys best lowestCost, st) := by
  induction keys generalizing best lowestCost with
  | nil => rfl
  | cons k rest ih =>
    have hsnd := GetUsage_snd st provider k.Name
    rcases hp : st.GetUsage provider k.Name with ⟨res, st'⟩
    have hst : st' = st := by rw [← hsnd, hp]
    subst hst
    cases res with
    | error msg =>
      simp only [costOptimizedLoop, costOptPure, usageOf, hp]
      exact ih ..
    | ok usage =>
      simp only [costOptimizedLoop, costOptPure, usageOf, hp]
      split <;> exact ih ..

theorem fallbackFilterLoop_eq (provider excludeKey : String) (st : MemoryKeyStore)
    (keys acc : List APIKey) :
    fallbackFilterLoop provider excludeKey st keys acc
      = (fallbackFilterPure (healthyOf st provider) excludeKey keys acc, st) := by
  induction keys generalizing acc with
  | nil => rfl
  | cons k rest ih =>
    by_cases hx : (k.Name == excludeKey) = true
    · simp only [fallbackFilterLoop, fallbackFilterPure, hx, if_true]
      exact ih ..
    · have hsnd := IsHealthy_snd st provider k.Name
      rcases hp : st.IsHealthy provider k.Name with ⟨res, st'⟩
      have hst : st' = st := by rw [← hsnd, hp]
      subst hst
      cases res with
      | error msg =>
        simp only [fallbackFilterLoop, fallbackFilterPure, hx, if_false, healthyOf, hp]
        exact ih ..
      | ok b =>
        cases b <;>
          simp only [fallbackFilterLoop, fallbackFilterPure, hx, if_false, healthyOf, hp] <;>
          exact ih ..

theorem healthyOf_eq_some (st : MemoryKeyStore) (p n : String) (b : Bool) :
    healthyOf st p n = some b ↔ (st.IsHealthy p n).1 = .ok b := by
  unfold healthyOf
  cases h : (st.IsHealthy p n).1 <;> simp

theorem usageOf_eq_some (st : MemoryKeyStore) (p n : String) (u : KeyUsage) :
    usageOf st p n = some u ↔ (st.GetUsage p n).1 = .ok u := by
  unfold usageOf
  cases h : (st.GetUsage p n).1 <;> simp

/-! ### `GetNextKey` never writes to the store -/

theorem retrieveSelection_store (st : MemoryKeyStore) (kr : KeyRotator)
    (provider : String) (selectedKey : APIKey) (strategy : String) (now : GoTime) :
    (retrieveSelection st kr provider selectedKey strategy now).2.1 = st := by
  unfold retrieveSelection
  split
  · rename_i msg st₁ heq
    exact (by rw [← GetKey_snd st provider selectedKey.Name, heq] : st₁ = st)
  · rename_i keyValue st₁ heq
    have h1 : st₁ = st := by rw [← GetKey_snd st provider selectedKey.Name, heq]
    split
    rename_i usageRes st₂ heq₂
    have h2 : st₂ = st₁ := by rw [← GetUsage_snd st₁ provider selectedKey.Name, heq₂]
    exact h2.trans h1

theorem getFallbackKey_store (st : MemoryKeyStore) (kr : KeyRotator)
    (provider excludeKey : String) (keys : List APIKey) (now : GoTime) :
    (KeyRotator.getFallbackKey st kr provider excludeKey keys now).2.1 = st := by
  unfold KeyRotator.getFallbackKey
  rw [fallbackFilterLoop_eq]
  split
  rename_i fk st₁ heq
  injection heq with h1 h2
  subst h1
  subst h2
  split
  · rfl
  · rcases hrr : kr.selectRoundRobin provider
        (fallbackFilterPure (healthyOf st provider) excludeKey keys []) with ⟨selRes, kr₁⟩
    cases selRes with
    | picked k => exact retrieveSelection_store ..
    | nilKey => rfl
    | panicIdx i l => rfl

theorem finishSelection_store (st : MemoryKeyStore) (kr : KeyRotator)
    (pc : ProviderConfig) (provider : String) (enabledKeys : List APIKey)
    (selectedKey : APIKey) (now : GoTime) :
    (finishSelection st kr pc provider enabledKeys selectedKey now).2.1 = st := by
  unfold finishSelection
  split
  · split
    · rename_i msg st₁ heq
      exact (by rw [← IsHealthy_snd st provider selectedKey.Name, heq] : st₁ = st)
    · rename_i st₁ heq
      have h1 : st₁ = st := by rw [← IsHealthy_snd st provider selectedKey.Name, heq]
      rw [retrieveSelection_store]
      exact h1
    · rename_i st₁ heq
      have h1 : st₁ = st := by rw [← IsHealthy_snd st provider selectedKey.Name, heq]
      split
      · rw [getFallbackKey_store]
        exact h1
      · exact h1
  · exact retrieveSelection_store ..

theorem selectLeastUsed_eq (st : MemoryKeyStore) (provider : String)
    (keys : List APIKey) (now : GoTime) :
    selectLeastUsed st provider keys now
      = ((if keys.isEmpty then .error "no keys available"
          else .ok (leastUsedPure (usageOf st provider) keys none (-1) now)), st) := by
  by_cases h : keys.isEmpty = true <;>
    simp [selectLeastUsed, h, leastUsedLoop_eq]

theorem selectCostOptimized_eq (st : MemoryKeyStore) (provider : String)
    (keys : List APIKey) :
    selectCostOptimized st provider keys
      = ((if keys.isEmpty then .error "no keys available"
          else
            match costOptPure (usageOf st provider) keys none (-1) with
            | none => .error "all keys have exceeded their cost limits"
            | some k => .ok k), st) := by
  by_cases h : keys.isEmpty = true
  · simp [selectCostOptimized, h]
  · cases hres : costOptPure (usageOf st provider) keys none (-1) <;>
      simp [selectCostOptimized, h, costOptimizedLoop_eq, hres]

theorem GetNextKey_store (cfg : Config) (st : MemoryKeyStore) (kr : KeyRotator)
    (provider : String) (randChoice : Nat) (now : GoTime) :
    (KeyRotator.GetNextKey cfg st kr provider randChoice now).2.1 = st := by
  unfold KeyRotator.GetNextKey
  split
  · rfl
  · rename_i pc hpc
    dsimp only
    split
    · rfl
    · split
      · -- least_used
        rw [selectLeastUsed_eq]
        split <;> rename_i heq <;> injection heq with hA hB <;> subst hB
        · rfl
        · rfl
        · exact finishSelection_store ..
      · split
        · -- cost_optimized
          rw [selectCostOptimized_eq]
          split <;> rename_i heq <;> injection heq with hA hB <;> subst hB
          · rfl
          · exact finishSelection_store ..
        · split
          · -- random
            split
            · rfl
            · exact finishSelection_store ..
          · split
            · -- single
              split
              · rfl
              · exact finishSelection_store ..
            · -- round_robin and default
              split
              · rfl
              · rfl
              · exact finishSelection_store ..

/-! ### Concrete fixtures -/

/-- An enabled credential named `a` with secret `sk-a` and no cost limit. -/
def exKeyA : APIKey :=
  { Key := "sk-a", Name := "a", RateLimit := 0, CostLimit := 0, Enabled := true
    LastUsed := ⟨0, 1⟩, UsageCount := 0, CostUsed := 0 }

/-- An enabled credential named `b` with secret `sk-b`. -/
def exKeyB : APIKey := { exKeyA with Key := "sk-b", Name := "b" }

/-- A zeroed usage record stamped on day 1. -/
def zeroUsageDay1 : KeyUsage := defaultUsage ⟨0, 1⟩

/-- Provider `openai` with credentials `a`, `b`; round-robin strategy,
health-checking and fallback both enabled. -/
def c1Config : Config :=
  { Providers := [("openai",
      { APIKeys := [exKeyA, exKeyB]
        Rotation :=
          { Strategy := RotationRoundRobin, Interval := ""
            HealthCheck := true, FallbackEnabled := true } })] }

/-- Store state for the fallback scenario: both secrets present, `a`
unhealthy, `b` healthy. -/
def c1Store : MemoryKeyStore :=
  { keys := [("openai", [("a", .plain "sk-a"), ("b", .plain "sk-b")])]
    usage := [("openai", [("a", zeroUsageDay1), ("b", zeroUsageDay1)])]
    health := [("openai", [("a", false), ("b", true)])]
    encryptor := none }

/-- C1: with two enabled credentials, health-checking and fallback on, a
fresh rotation cursor (0), primary `a` unhealthy and `b` healthy, the
claim says `GetNextKey` returns the secondary `b` via round-robin fallback
and never indexes outside the survivor list.  Instead, the code selects
`a` at cursor 0, advances the shared cursor to 1, and the fallback
re-selection then indexes the one-element survivor list `[b]` at index 1 —
an out-of-range slice access, i.e. a Go runtime panic.  The conjuncts
record that the scenario's hypotheses hold (`a` unhealthy, `b` healthy)
and that the call ends in the out-of-range access instead of selecting
`b`. -/
theorem C1_fallback_panics_on_stale_cursor :
    (KeyRotator.GetNextKey c1Config c1Store NewKeyRotator "openai" 0 ⟨100, 1⟩).1
        = .error (.indexOutOfRange 1 1)
      ∧ (c1Store.IsHealthy "openai" "a").1 = .ok false
      ∧ (c1Store.IsHealthy "openai" "b").1 = .ok true := by
  refine ⟨?_, rfl, rfl⟩
  rfl

/-- Usage record for the rollover scenario: last used on day 1 with an
accumulated daily cost of 10. -/
def c2Usage : KeyUsage :=
  { LastUsed := ⟨0, 1⟩, UsageCount := 0, TokensUsed := 0, CostUsed := 0
    DailyCost := 10, ErrorCount := 0, LastError := "" }

/-- Store with credential `a` whose ledger is `c2Usage`. -/
def c2Store : MemoryKeyStore :=
  { keys := [("openai", [("a", .plain "sk-a")])]
    usage := [("openai", [("a", c2Usage)])]
    health := [("openai", [("a", true)])]
    encryptor := none }

/-- C2: the record was last used on calendar day 1 and `UpdateUsage` runs
on day 2 with cost 2, so the claim (and the code's own comment "Reset
daily cost if it's a new day") demands the daily cost become 2.  The code
instead yields 12: it assigns `usage.LastUsed = time.Now()` *before* the
comparison `usage.LastUsed.Day() != now.Day()`, so the rollover branch
compares now against now and is unreachable — daily cost always
accumulates. -/
theorem C2_daily_cost_never_resets :
    ((c2Store.UpdateUsage "openai" "a" 1 2 ⟨200, 2⟩ ⟨200, 2⟩).2.GetUsage "openai" "a").1
        = .ok { LastUsed := ⟨200, 2⟩, UsageCount := 1, TokensUsed := 1, CostUsed := 2
                DailyCost := 12, ErrorCount := 0, LastError := "" }
      ∧ c2Usage.LastUsed.day ≠ (GoTime.mk 200 2).day
      ∧ (12 : ℚ) ≠ 2 := by
  refine ⟨?_, by decide, by norm_num⟩
  norm_num [c2Store, c2Usage, MemoryKeyStore.UpdateUsage, MemoryKeyStore.GetUsage,
    mapLookup, mapSet]

/-- Credential `a` with a positive daily cost limit of 5. -/
def c5Key : APIKey := { exKeyA with CostLimit := 5 }

/-- Provider config for the ledger-over-budget scenario: single credential,
round-robin, no health-checking. -/
def c5Config : Config :=
  { Providers := [("openai",
      { APIKeys := [c5Key]
        Rotation :=
          { Strategy := RotationRoundRobin, Interval := ""
            HealthCheck := false, FallbackEnabled := false } })] }

/-- Store whose ledger shows `a` at daily cost 10, over its limit of 5. -/
def c5Store : MemoryKeyStore :=
  { keys := [("openai", [("a", .plain "sk-a")])]
    usage := [("openai", [("a", { zeroUsageDay1 with DailyCost := 10 })])]
    health := [("openai", [("a", true)])]
    encryptor := none }

/-- C5 counterexample: the ledger shows credential `a` at daily cost 10,
at or over its positive cost limit 5, so by the claim it must be excluded
from selection under every strategy (here: round-robin) and the call must
fail with `NoCredentialsAvailable`.  The code nevertheless selects `a`:
`GetEnabledKeys`/`CanUse` consult only the config record's own `CostUsed`
field (still 0 — no code ever writes it), never the keystore ledger. -/
theorem C5_ledger_over_budget_still_selected :
    (∃ sel, (KeyRotator.GetNextKey c5Config c5Store NewKeyRotator "openai" 0 ⟨100, 1⟩).1
        = .ok sel ∧ sel.KeyName = "a")
      ∧ usageOf c5Store "openai" "a" = some { zeroUsageDay1 with DailyCost := 10 }
      ∧ (0 : ℚ) < c5Key.CostLimit ∧ c5Key.CostLimit ≤ (10 : ℚ) := by
  refine ⟨⟨{ Provider := "openai", KeyName := "a", Key := "sk-a", RateLimit := 0
             CostLimit := 5, UsageCount := 0, LastUsed := ⟨0, 1⟩
             Strategy := RotationRoundRobin }, ?_, rfl⟩, by decide, by decide, by decide⟩
  decide

/-- A credential with no usage record in the scenario store. -/
def c4NoRec : APIKey := { exKeyA with Name := "x", Key := "sk-x" }

/-- A credential over its positive cost limit (record cost 5, limit 3). -/
def c4Over : APIKey := { exKeyA with Name := "y", Key := "sk-y", CostLimit := 3 }

/-- An unlimited credential with recorded daily cost 10. -/
def c4Ten : APIKey := { exKeyA with Name := "w", Key := "sk-w" }

/-- An unlimited credential with recorded daily cost 5. -/
def c4Cheap : APIKey := { exKeyA with Name := "z", Key := "sk-z" }

/-- Store for the cost-optimized scenarios: records for `y` (cost 5),
`w` (cost 10) and `z` (cost 5); no records for `x`. -/
def c4Store : MemoryKeyStore :=
  { keys := [("p", [])]
    usage := [("p", [("y", { zeroUsageDay1 with DailyCost := 5 })
                     , ("w", { zeroUsageDay1 with DailyCost := 10 })
                     , ("z", { zeroUsageDay1 with DailyCost := 5 })])]
    health := [("p", [])]
    encryptor := none }

/-- C4 counterexample, two scenarios.  (1) Candidates `[x, y]` where `x`
has no usage record (and no positive limit) while `y` is the only
candidate with a positive limit and is at/over it — by the claim's
"fails … exactly when every candidate with a positive limit has daily
cost at or over that limit" the call must fail with
`AllCredentialsOverBudget`; the code instead returns `x`.  (2) Candidates
`[w, x, z]` with `w` recorded at 10, `x` unrecorded ("treated as lowest
cost" per the claim, so `x` must win), `z` recorded at 5 — the code
returns `z`: the unrecorded `x` is only provisionally selected and the
scan's `lowestCost` (still 10 from `w`) lets the later `z` displace it. -/
theorem C4_cost_optimized_counterexample :
    ((selectCostOptimized c4Store "p" [c4NoRec, c4Over]).1 = .ok c4NoRec
      ∧ usageOf c4Store "p" c4NoRec.Name = none
      ∧ (0 : ℚ) < c4Over.CostLimit
      ∧ (∃ u, usageOf c4Store "p" c4Over.Name = some u ∧ c4Over.CostLimit ≤ u.DailyCost))
    ∧ ((selectCostOptimized c4Store "p" [c4Ten, c4NoRec, c4Cheap]).1 = .ok c4Cheap
      ∧ usageOf c4Store "p" c4NoRec.Name = none
      ∧ (∃ u, usageOf c4Store "p" c4Cheap.Name = some u ∧ (0 : ℚ) < u.DailyCost)) := by
  constructor
  · exact ⟨by decide, by decide, by decide,
      ⟨{ zeroUsageDay1 with DailyCost := 5 }, by decide, by decide⟩⟩
  · exact ⟨by decide, by decide,
      ⟨{ zeroUsageDay1 with DailyCost := 5 }, by decide, by decide⟩⟩

/-! ### Analysis of the cost-optimized scan -/

theorem adm_iff (lim cost : ℚ) : (lim ≤ 0 ∨ cost < lim) ↔ ¬(0 < lim ∧ lim ≤ cost) := by
  rw [not_and_or, not_lt, not_le]

theorem costOptPure_isSome (getU : String → Option KeyUsage) :
    ∀ (keys : List APIKey) (b : APIKey) (lowest : ℚ),
      (costOptPure getU keys (some b) lowest).isSome = true := by
  intro keys
  induction keys with
  | nil => intro b lowest; rfl
  | cons k rest ih =>
    intro b lowest
    cases hg : getU k.Name with
    | none => simpa only [costOptPure, hg] using ih ..
    | some u =>
      simp only [costOptPure, hg]
      split
      · exact ih ..
      · exact ih ..

theorem costOptPure_mem (getU : String → Option KeyUsage) :
    ∀ (keys : List APIKey) (best : Option APIKey) (lowest : ℚ) (r : APIKey),
      costOptPure getU keys best lowest = some r → r ∈ keys ∨ best = some r := by
  intro keys
  induction keys with
  | nil =>
    intro best lowest r h
    exact Or.inr h
  | cons k rest ih =>
    intro best lowest r h
    cases hg : getU k.Name with
    | none =>
      simp only [costOptPure, hg] at h
      rcases ih _ _ _ h with hmem | heq
      · exact Or.inl (List.mem_cons_of_mem _ hmem)
      · cases heq
        exact Or.inl (List.mem_cons_self _ _)
    | some u =>
      simp only [costOptPure, hg] at h
      split at h
      · rcases ih _ _ _ h with hmem | heq
        · exact Or.inl (List.mem_cons_of_mem _ hmem)
        · cases heq
          exact Or.inl (List.mem_cons_self _ _)
      · rcases ih _ _ _ h with hmem | heq
        · exact Or.inl (List.mem_cons_of_mem _ hmem)
        · exact Or.inr heq

theorem costOptPure_none_iff (getU : String → Option KeyUsage) :
    ∀ (keys : List APIKey),
      costOptPure getU keys none (-1) = none
        ↔ ∀ k ∈ keys, ∃ u, getU k.Name = some u ∧
            0 < k.CostLimit ∧ k.CostLimit ≤ u.DailyCost := by
  intro keys
  induction keys with
  | nil => simp [costOptPure]
  | cons k rest ih =>
    cases hg : getU k.Name with
    | none =>
      simp only [costOptPure, hg]
      constructor
      · intro h
        exact absurd h (by
          have := costOptPure_isSome getU rest k (-1)
          exact Option.isSome_iff_ne_none.mp this)
      · intro h
        rcases h k (List.mem_cons_self _ _) with ⟨u, hu, _, _⟩
        rw [hg] at hu
        cases hu
    | some u =>
      simp only [costOptPure, hg]
      split
      · rename_i hc
        simp only [Bool.and_eq_true, Bool.or_eq_true, decide_eq_true_eq] at hc
        have hadm := (adm_iff k.CostLimit u.DailyCost).mp hc.2
        constructor
        · intro h
          exact absurd h (Option.isSome_iff_ne_none.mp (costOptPure_isSome ..))
        · intro h
          rcases h k (List.mem_cons_self _ _) with ⟨u', hu', h0, hle⟩
          rw [hg] at hu'
          cases hu'
          exact absurd ⟨h0, hle⟩ hadm
      · rename_i hc
        simp only [Bool.and_eq_true, Bool.or_eq_true, decide_eq_true_eq] at hc
        have hover : 0 < k.CostLimit ∧ k.CostLimit ≤ u.DailyCost := by
          by_contra hcon
          exact hc ⟨Or.inl trivial, (adm_iff k.CostLimit u.DailyCost).mpr hcon⟩
        rw [ih]
        constructor
        · intro h
          intro k' hk'
          rcases List.mem_cons.mp hk' with h1 | h2
          · subst h1
            exact ⟨u, hg, hover⟩
          · exact h k' h2
        · intro h k' hk'
          exact h k' (List.mem_cons_of_mem _ hk')

/-- The selected candidate is either unrecorded or admissible (never a
recorded candidate at or over its positive limit). -/
theorem costOptPure_shape (getU : String → Option KeyUsage) :
    ∀ (keys : List APIKey) (best : Option APIKey) (lowest : ℚ) (r : APIKey),
      (best = none ∨ ∃ b, best = some b ∧
        (getU b.Name = none ∨ ∃ u, getU b.Name = some u ∧
          (b.CostLimit ≤ 0 ∨ u.DailyCost < b.CostLimit))) →
      costOptPure getU keys best lowest = some r →
      (getU r.Name = none ∨ ∃ u, getU r.Name = some u ∧
        (r.CostLimit ≤ 0 ∨ u.DailyCost < r.CostLimit)) := by
  intro keys
  induction keys with
  | nil =>
    intro best lowest r hinv h
    rcases hinv with h1 | ⟨b, hb, hprop⟩
    · rw [h1] at h
      cases h
    · rw [hb] at h
      cases h
      exact hprop
  | cons k rest ih =>
    intro best lowest r hinv h
    cases hg : getU k.Name with
    | none =>
      simp only [costOptPure, hg] at h
      exact ih _ _ _ (Or.inr ⟨k, rfl, Or.inl hg⟩) h
    | some u =>
      simp only [costOptPure, hg] at h
      split at h
      · rename_i hc
        simp only [Bool.and_eq_true, Bool.or_eq_true, decide_eq_true_eq] at hc
        exact ih _ _ _ (Or.inr ⟨k, rfl, Or.inr ⟨u, hg, hc.2⟩⟩) h
      · exact ih _ _ _ hinv h

/-- Minimality: when every candidate has a usage record with non-negative
daily cost, the scan returns a candidate of minimal daily cost among the
admissible ones. -/
theorem costOptPure_min (getU : String → Option KeyUsage) :
    ∀ (keys : List APIKey) (best : Option APIKey) (lowest : ℚ) (r : APIKey),
      (∀ k ∈ keys, ∃ u, getU k.Name = some u ∧ 0 ≤ u.DailyCost) →
      ((best = none ∧ lowest = -1) ∨
        (∃ b u_b, best = some b ∧ getU b.Name = some u_b ∧
          (b.CostLimit ≤ 0 ∨ u_b.DailyCost < b.CostLimit) ∧
          u_b.DailyCost = lowest ∧ 0 ≤ lowest)) →
      costOptPure getU keys best lowest = some r →
      ∃ u_r, getU r.Name = some u_r ∧
        (r.CostLimit ≤ 0 ∨ u_r.DailyCost < r.CostLimit) ∧
        (∀ k ∈ keys, ∀ u, getU k.Name = some u →
          (k.CostLimit ≤ 0 ∨ u.DailyCost < k.CostLimit) →
          u_r.DailyCost ≤ u.DailyCost) ∧
        (∀ b, best = some b → u_r.DailyCost ≤ lowest) := by
  intro keys
  induction keys with
  | nil =>
    intro best lowest r _ hinv h
    rcases hinv with ⟨h1, _⟩ | ⟨b, u_b, hb, hgb, hadm, hcost, _⟩
    · rw [h1] at h
      cases h
    · rw [hb] at h
      cases h
      refine ⟨u_b, hgb, hadm, ?_, ?_⟩
      · intro k hk
        cases hk
      · intro b' hb'
        cases hb'
        rw [hcost]
  | cons k rest ih =>
    intro best lowest r hrec hinv h
    obtain ⟨u_k, hgk, hnn⟩ := hrec k (List.mem_cons_self _ _) ..
    have hrec' : ∀ k' ∈ rest, ∃ u, getU k'.Name = some u ∧ 0 ≤ u.DailyCost :=
      fun k' hk' => hrec k' (List.mem_cons_of_mem _ hk')
    simp only [costOptPure, hgk] at h
    split at h
    · rename_i hc
      simp only [Bool.and_eq_true, Bool.or_eq_true, decide_eq_true_eq] at hc
      obtain ⟨u_r, hgr, hadm_r, hminRest, hle⟩ :=
        ih _ _ _ hrec' (Or.inr ⟨k, u_k, rfl, hgk, hc.2, rfl, hnn⟩) h
      have hle_k : u_r.DailyCost ≤ u_k.DailyCost := hle k rfl
      refine ⟨u_r, hgr, hadm_r, ?_, ?_⟩
      · intro k' hk' u hu hadm
        rcases List.mem_cons.mp hk' with h1 | h2
        · subst h1
          rw [hgk] at hu
          cases hu
          exact hle_k
        · exact hminRest k' h2 u hu hadm
      · intro b hb
        subst hb
        rcases hinv with ⟨habs, _⟩ | ⟨b', u_b, hb', hgb, _, hcost, hnnl⟩
        · cases habs
        · rcases hc.1 with hlow | hlt
          · rw [hlow] at hnnl
            norm_num at hnnl
          · exact le_of_lt (lt_of_le_of_lt hle_k hlt)
    · rename_i hc
      simp only [Bool.and_eq_true, Bool.or_eq_true, decide_eq_true_eq] at hc
      obtain ⟨u_r, hgr, hadm_r, hminRest, hle⟩ := ih _ _ _ hrec' hinv h
      refine ⟨u_r, hgr, hadm_r, ?_, hle⟩
      intro k' hk' u hu hadm
      rcases List.mem_cons.mp hk' with h1 | h2
      · subst h1
        rw [hgk] at hu
        cases hu
        have hnA : ¬((lowest = -1) ∨ u_k.DailyCost < lowest) := fun hA => hc ⟨hA, hadm⟩
        rw [not_or, not_lt] at hnA
        obtain ⟨hne, hge⟩ := hnA
        rcases hinv with ⟨hbn, hlw⟩ | ⟨b, u_b, hb, hgb, _, hcost, _⟩
        · exact absurd hlw hne
        · exact le_trans (hle b hb) hge
      · exact hminRest k' h2 u hu hadm

/-- C4 (amended): for a non-empty candidate list, `selectCostOptimized`
(i) returns a member that is never a recorded candidate at or over its
positive cost limit; (ii) fails with `AllCredentialsOverBudget` iff
*every* candidate has a usage record with a positive cost limit and a
daily cost at or over it (an unrecorded candidate, or one with a
non-positive limit, prevents the error); (iii) when every candidate has a
usage record (with non-negative daily cost), the returned candidate has
the lowest daily cost among the admissible ones.  An unrecorded candidate
is only provisionally selected during the scan and may be displaced by a
later recorded admissible candidate, so it is not always treated as
lowest cost. -/
theorem C4_costOptimized_amended (st : MemoryKeyStore) (provider : String)
    (keys : List APIKey) (hne : keys ≠ []) :
    (∀ r, (selectCostOptimized st provider keys).1 = .ok r →
      r ∈ keys ∧ ∀ u, usageOf st provider r.Name = some u →
        0 < r.CostLimit → u.DailyCost < r.CostLimit)
    ∧ ((selectCostOptimized st provider keys).1
          = .error "all keys have exceeded their cost limits"
        ↔ ∀ k ∈ keys, ∃ u, usageOf st provider k.Name = some u ∧
            0 < k.CostLimit ∧ k.CostLimit ≤ u.DailyCost)
    ∧ ((∀ k ∈ keys, ∃ u, usageOf st provider k.Name = some u ∧ 0 ≤ u.DailyCost) →
        ∀ r, (selectCostOptimized st provider keys).1 = .ok r →
          ∃ u_r, usageOf st provider r.Name = some u_r ∧
            ∀ k ∈ keys, ∀ u, usageOf st provider k.Name = some u →
              (k.CostLimit ≤ 0 ∨ u.DailyCost < k.CostLimit) →
              u_r.DailyCost ≤ u.DailyCost) := by
  have hnE : keys.isEmpty = false := by
    cases keys with
    | nil => exact absurd rfl hne
    | cons a l => rfl
  have hsel : (selectCostOptimized st provider keys).1
      = match costOptPure (usageOf st provider) keys none (-1) with
        | none => .error "all keys have exceeded their cost limits"
        | some k => .ok k := by
    rw [selectCostOptimized_eq]
    simp [hnE]
  refine ⟨?_, ?_, ?_⟩
  · intro r hr
    rw [hsel] at hr
    cases hcop : costOptPure (usageOf st provider) keys none (-1) with
    | none => rw [hcop] at hr; cases hr
    | some k =>
      rw [hcop] at hr
      cases hr
      constructor
      · rcases costOptPure_mem _ _ _ _ _ hcop with hmem | habs
        · exact hmem
        · cases habs
      · intro u hu h0
        rcases costOptPure_shape _ _ _ _ _ (Or.inl rfl) hcop with hnone | ⟨u', hu', hadm⟩
        · rw [hnone] at hu
          cases hu
        · rw [hu'] at hu
          cases hu
          rcases hadm with hle | hlt
          · exact absurd (lt_of_lt_of_le h0 hle) (lt_irrefl 0)
          · exact hlt
  · rw [hsel, ← costOptPure_none_iff]
    cases hcop : costOptPure (usageOf st provider) keys none (-1) <;> simp [hcop]
  · intro hrec r hr
    rw [hsel] at hr
    cases hcop : costOptPure (usageOf st provider) keys none (-1) with
    | none => rw [hcop] at hr; cases hr
    | some k =>
      rw [hcop] at hr
      cases hr
      obtain ⟨u_r, hgr, _, hmin, _⟩ :=
        costOptPure_min _ _ _ _ _ hrec (Or.inl ⟨rfl, rfl⟩) hcop
      exact ⟨u_r, hgr, hmin⟩

/-- Witness: on the concrete store `c4Store` with two recorded unlimited
candidates, `AllCredentialsOverBudget` is impossible. -/
theorem C4_costOptimized_amended_witness :
    (selectCostOptimized c4Store "p" [c4Ten, c4Cheap]).1
      ≠ Except.error "all keys have exceeded their cost limits" := by
  intro hcontra
  obtain ⟨u, hu, h0, hle⟩ :=
    ((C4_costOptimized_amended c4Store "p" [c4Ten, c4Cheap]
        (by decide)).2.1.mp hcontra) c4Ten (List.mem_cons_self _ _)
  have hz : c4Ten.CostLimit = 0 := rfl
  rw [hz] at h0
  exact absurd h0 (lt_irrefl 0)

/-! ### Analysis of the least-used scan -/

theorem leastUsedPure_mem (getU : String → Option KeyUsage) :
    ∀ (keys : List APIKey) (best : Option APIKey) (minU : Int) (oldest : GoTime)
      (r : APIKey),
      leastUsedPure getU keys best minU oldest = some r → r ∈ keys ∨ best = some r := by
  intro keys
  induction keys with
  | nil =>
    intro best minU oldest r h
    exact Or.inr h
  | cons k rest ih =>
    intro best minU oldest r h
    cases hg : getU k.Name with
    | none =>
      simp only [leastUsedPure, hg] at h
      cases h
      exact Or.inl (List.mem_cons_self _ _)
    | some u =>
      simp only [leastUsedPure, hg] at h
      split at h
      · rcases ih _ _ _ _ h with hmem | heq
        · exact Or.inl (List.mem_cons_of_mem _ hmem)
        · cases heq
          exact Or.inl (List.mem_cons_self _ _)
      · rcases ih _ _ _ _ h with hmem | heq
        · exact Or.inl (List.mem_cons_of_mem _ hmem)
        · exact Or.inr heq

/-- When every candidate has a usage record with a non-negative request
count, the scan returns a candidate whose (count, last-used) pair is
lexicographically minimal: minimal count, and among count-ties a
last-used time no newer than any other tied candidate's. -/
theorem leastUsedPure_min (getU : String → Option KeyUsage) :
    ∀ (keys : List APIKey) (best : Option APIKey) (minU : Int) (oldest : GoTime)
      (r : APIKey),
      (∀ k ∈ keys, ∃ u, getU k.Name = some u ∧ 0 ≤ u.UsageCount) →
      ((best = none ∧ minU = -1) ∨
        (∃ b u_b, best = some b ∧ getU b.Name = some u_b ∧
          u_b.UsageCount = minU ∧ u_b.LastUsed = oldest ∧ 0 ≤ minU)) →
      leastUsedPure getU keys best minU oldest = some r →
      ∃ u_r, getU r.Name = some u_r ∧
        (∀ k ∈ keys, ∀ u, getU k.Name = some u →
          u_r.UsageCount < u.UsageCount ∨
            (u_r.UsageCount = u.UsageCount ∧ u_r.LastUsed.abs ≤ u.LastUsed.abs)) ∧
        (∀ b, best = some b →
          u_r.UsageCount < minU ∨
            (u_r.UsageCount = minU ∧ u_r.LastUsed.abs ≤ oldest.abs)) := by
  intro keys
  induction keys with
  | nil =>
    intro best minU oldest r _ hinv h
    rcases hinv with ⟨h1, _⟩ | ⟨b, u_b, hb, hgb, hcnt, htime, _⟩
    · rw [h1] at h
      cases h
    · rw [hb] at h
      cases h
      refine ⟨u_b, hgb, ?_, ?_⟩
      · intro k hk
        cases hk
      · intro b' hb'
        cases hb'
        exact Or.inr ⟨hcnt, by rw [htime]⟩
  | cons k rest ih =>
    intro best minU oldest r hrec hinv h
    obtain ⟨u_k, hgk, hnn⟩ := hrec k (List.mem_cons_self _ _)
    have hrec' : ∀ k' ∈ rest, ∃ u, getU k'.Name = some u ∧ 0 ≤ u.UsageCount :=
      fun k' hk' => hrec k' (List.mem_cons_of_mem _ hk')
    simp only [leastUsedPure, hgk] at h
    split at h
    · rename_i hc
      simp only [Bool.or_eq_true, Bool.and_eq_true, decide_eq_true_eq,
        GoTime.Before] at hc
      obtain ⟨u_r, hgr, hminRest, hle⟩ :=
        ih _ _ _ _ hrec' (Or.inr ⟨k, u_k, rfl, hgk, rfl, rfl, hnn⟩) h
      have hle_k := hle k rfl
      refine ⟨u_r, hgr, ?_, ?_⟩
      · intro k' hk' u hu
        rcases List.mem_cons.mp hk' with h1 | h2
        · subst h1
          rw [hgk] at hu
          cases hu
          exact hle_k
        · exact hminRest k' h2 u hu
      · intro b hb
        subst hb
        rcases hinv with ⟨habs, _⟩ | ⟨b', u_b, hb', hgb, hcnt, htime, hnnm⟩
        · cases habs
        · rcases hc with (hm1 | hlt) | ⟨heqc, habs⟩
          · rw [hm1] at hnnm
            omega
          · rcases hle_k with h1 | ⟨h2, _⟩
            · exact Or.inl (lt_trans h1 hlt)
            · exact Or.inl (by omega)
          · rcases hle_k with h1 | ⟨h2, h3⟩
            · exact Or.inl (by omega)
            · exact Or.inr ⟨by omega, by omega⟩
    · rename_i hc
      simp only [Bool.or_eq_true, Bool.and_eq_true, decide_eq_true_eq,
        GoTime.Before] at hc
      push_neg at hc
      obtain ⟨⟨hne1, hnlt⟩, hntie⟩ := hc
      obtain ⟨u_r, hgr, hminRest, hle⟩ := ih _ _ _ _ hrec' hinv h
      rcases hinv with ⟨hbn, hlw⟩ | ⟨b, u_b, hb, hgb, hcnt, htime, hnnm⟩
      · exact absurd hlw hne1
      · have hle_b := hle b hb
        refine ⟨u_r, hgr, ?_, hle⟩
        intro k' hk' u hu
        rcases List.mem_cons.mp hk' with h1 | h2
        · subst h1
          rw [hgk] at hu
          cases hu
          by_cases hceq : u_k.UsageCount = minU
          · have hoe : oldest.abs ≤ u_k.LastUsed.abs := by
              have := hntie hceq
              omega
            rcases hle_b with hlt' | ⟨heq', hle'⟩
            · exact Or.inl (by omega)
            · exact Or.inr ⟨by omega, by omega⟩
          · have hgt : minU < u_k.UsageCount := by omega
            rcases hle_b with hlt' | ⟨heq', _⟩
            · exact Or.inl (by omega)
            · exact Or.inl (by omega)
        · exact hminRest k' h2 u hu

/-- The scan short-circuits at the first candidate with no usage record. -/
theorem leastUsedPure_break (getU : String → Option KeyUsage) :
    ∀ (pre : List APIKey) (k : APIKey) (post : List APIKey) (best : Option APIKey)
      (minU : Int) (oldest : GoTime),
      (∀ k' ∈ pre, (getU k'.Name).isSome = true) →
      getU k.Name = none →
      leastUsedPure getU (pre ++ k :: post) best minU oldest = some k := by
  intro pre
  induction pre with
  | nil =>
    intro k post best minU oldest _ hk
    simp only [List.nil_append, leastUsedPure, hk]
  | cons p rest ih =>
    intro k post best minU oldest hpre hk
    obtain ⟨u, hu⟩ := Option.isSome_iff_exists.mp (hpre p (List.mem_cons_self _ _))
    have hpre' : ∀ k' ∈ rest, (getU k'.Name).isSome = true :=
      fun k' hk' => hpre k' (List.mem_cons_of_mem _ hk')
    simp only [List.cons_append, leastUsedPure, hu]
    split
    · exact ih k post _ _ _ hpre' hk
    · exact ih k post _ _ _ hpre' hk

/-- C7: for a non-empty candidate list, `selectLeastUsed` (a) when every
candidate has a usage record (with non-negative request count), returns a
member whose request count is minimal among all candidates, and whose
last-used time is no newer than that of any candidate tied on the
minimal count; (b) returns the first candidate with no usage record,
ending the scan there regardless of later candidates. -/
theorem C7_leastUsed_minimum (st : MemoryKeyStore) (provider : String)
    (keys : List APIKey) (now : GoTime) (hne : keys ≠ []) :
    ((∀ k ∈ keys, ∃ u, usageOf st provider k.Name = some u ∧ 0 ≤ u.UsageCount) →
      ∀ r, (selectLeastUsed st provider keys now).1 = .ok (some r) →
        r ∈ keys ∧ ∃ u_r, usageOf st provider r.Name = some u_r ∧
          ∀ k ∈ keys, ∀ u, usageOf st provider k.Name = some u →
            u_r.UsageCount < u.UsageCount ∨
              (u_r.UsageCount = u.UsageCount ∧ u_r.LastUsed.abs ≤ u.LastUsed.abs))
    ∧ (∀ pre k post, keys = pre ++ k :: post →
        (∀ k' ∈ pre, (usageOf st provider k'.Name).isSome = true) →
        usageOf st provider k.Name = none →
        (selectLeastUsed st provider keys now).1 = .ok (some k)) := by
  have hnE : keys.isEmpty = false := by
    cases keys with
    | nil => exact absurd rfl hne
    | cons a l => rfl
  have hsel : (selectLeastUsed st provider keys now).1
      = .ok (leastUsedPure (usageOf st provider) keys none (-1) now) := by
    rw [selectLeastUsed_eq]
    simp [hnE]
  constructor
  · intro hrec r hr
    rw [hsel] at hr
    injection hr with hlu
    constructor
    · rcases leastUsedPure_mem _ _ _ _ _ _ hlu with hmem | habs
      · exact hmem
      · cases habs
    · obtain ⟨u_r, hgr, hmin, _⟩ :=
        leastUsedPure_min _ _ _ _ _ _ hrec (Or.inl ⟨rfl, rfl⟩) hlu
      exact ⟨u_r, hgr, hmin⟩
  · intro pre k post hsplit hpre hk
    rw [hsel, hsplit, leastUsedPure_break _ _ _ _ _ _ _ hpre hk]

/-- Witness: least-used over `[w, z]` (both recorded with zero request
counts and equal last-used times) selects the first candidate `w`. -/
theorem C7_leastUsed_minimum_witness :
    c4Ten ∈ [c4Ten, c4Cheap] ∧
      ∃ u_r, usageOf c4Store "p" c4Ten.Name = some u_r := by
  have h := (C7_leastUsed_minimum c4Store "p" [c4Ten, c4Cheap] ⟨5, 1⟩ (by decide)).1
    (by
      intro k hk
      rcases List.mem_cons.mp hk with h1 | h1
      · subst h1
        exact ⟨{ zeroUsageDay1 with DailyCost := 10 }, by decide, by decide⟩
      · rcases List.mem_cons.mp h1 with h2 | h2
        · subst h2
          exact ⟨{ zeroUsageDay1 with DailyCost := 5 }, by decide, by decide⟩
        · cases h2)
    c4Ten (by decide)
  exact ⟨h.1, h.2.imp fun u_r hu => hu.1⟩

/-! ### The candidate-list resolution of `GetNextKey` (claim C5) -/

theorem retrieveSelection_ne_noEnabled (st : MemoryKeyStore) (kr : KeyRotator)
    (provider : String) (selectedKey : APIKey) (strategy : String) (now : GoTime) :
    (retrieveSelection st kr provider selectedKey strategy now).1
      ≠ .error .noEnabledKeys := by
  unfold retrieveSelection
  split
  · simp
  · split
    simp

theorem getFallbackKey_ne_noEnabled (st : MemoryKeyStore) (kr : KeyRotator)
    (provider excludeKey : String) (keys : List APIKey) (now : GoTime) :
    (KeyRotator.getFallbackKey st kr provider excludeKey keys now).1
      ≠ .error .noEnabledKeys := by
  unfold KeyRotator.getFallbackKey
  split
  split
  · simp
  · split
    · simp
    · simp
    · apply retrieveSelection_ne_noEnabled

theorem finishSelection_ne_noEnabled (st : MemoryKeyStore) (kr : KeyRotator)
    (pc : ProviderConfig) (provider : String) (enabledKeys : List APIKey)
    (selectedKey : APIKey) (now : GoTime) :
    (finishSelection st kr pc provider enabledKeys selectedKey now).1
      ≠ .error .noEnabledKeys := by
  unfold finishSelection
  split
  · split
    · simp
    · apply retrieveSelection_ne_noEnabled
    · split
      · apply getFallbackKey_ne_noEnabled
      · simp
  · apply retrieveSelection_ne_noEnabled

theorem GetNextKey_noEnabled_iff (cfg : Config) (st : MemoryKeyStore)
    (kr : KeyRotator) (provider : String) (randChoice : Nat) (now : GoTime)
    (pc : ProviderConfig) (hpc : cfg.GetProvider provider = some pc) :
    ((KeyRotator.GetNextKey cfg st kr provider randChoice now).1
        = .error .noEnabledKeys
      ↔ pc.GetEnabledKeys = []) := by
  unfold KeyRotator.GetNextKey
  simp only [hpc]
  by_cases hE : pc.GetEnabledKeys.isEmpty = true
  · have hnil : pc.GetEnabledKeys = [] := by
      cases h : pc.GetEnabledKeys with
      | nil => rfl
      | cons a l => rw [h] at hE; cases hE
    simp [hE, hnil]
  · have hnil : pc.GetEnabledKeys ≠ [] := by
      intro hcon
      rw [hcon] at hE
      exact hE rfl
    rw [if_neg hE]
    apply iff_of_false ?_ hnil
    split
    · -- least_used
      rw [selectLeastUsed_eq]
      split
      · simp
      · simp
      · apply finishSelection_ne_noEnabled
    · split
      · -- cost_optimized
        rw [selectCostOptimized_eq]
        split
        · simp
        · apply finishSelection_ne_noEnabled
      · split
        · -- random
          split
          · simp
          · apply finishSelection_ne_noEnabled
        · split
          · -- single
            split
            · simp
            · apply finishSelection_ne_noEnabled
          · -- round_robin and default
            split
            · simp
            · simp
            · apply finishSelection_ne_noEnabled

/-- The boolean candidate filter, characterised. -/
theorem filter_cond_iff (k : APIKey) :
    (k.IsValid && k.CanUse) = true ↔
      (k.Enabled = true ∧ k.Key ≠ "" ∧ k.Name ≠ "" ∧
        (0 < k.CostLimit → k.CostUsed < k.CostLimit)) := by
  unfold APIKey.CanUse APIKey.IsValid
  cases hE : k.Enabled with
  | false => simp [hE]
  | true =>
    by_cases hK : k.Key = ""
    · simp [hE, hK]
    · by_cases hN : k.Name = ""
      · simp [hE, hK, hN]
      · by_cases h0 : 0 < k.CostLimit
        · by_cases hle : k.CostLimit ≤ k.CostUsed
          · simp [hE, hK, hN, h0, hle, not_lt.mpr hle]
          · simp [hE, hK, hN, h0, hle, not_le.mp hle]
        · simp [hE, hK, hN, h0]

/-- C5 (amended): `GetNextKey` fails with `NoCredentialsAvailable` iff the
provider's candidate list is empty — the iff holds for *every* key store
state `st`, so the keystore ledger plays no role in candidacy — and the
candidate list consists of exactly those config records that are enabled,
have a non-empty key and name, and whose own (never-updated) `CostUsed`
field is under any positive cost limit.  A credential whose keystore
ledger is over its positive daily limit is therefore not excluded (only
the cost-optimized strategy consults the ledger). -/
theorem C5_candidate_resolution_amended (cfg : Config) (st : MemoryKeyStore)
    (kr : KeyRotator) (provider : String) (randChoice : Nat) (now : GoTime)
    (pc : ProviderConfig) (hpc : cfg.GetProvider provider = some pc) :
    ((KeyRotator.GetNextKey cfg st kr provider randChoice now).1
        = .error .noEnabledKeys
      ↔ pc.GetEnabledKeys = [])
    ∧ (∀ k, k ∈ pc.GetEnabledKeys ↔
        (k ∈ pc.APIKeys ∧ k.Enabled = true ∧ k.Key ≠ "" ∧ k.Name ≠ "" ∧
          (0 < k.CostLimit → k.CostUsed < k.CostLimit))) := by
  refine ⟨GetNextKey_noEnabled_iff cfg st kr provider randChoice now pc hpc, ?_⟩
  intro k
  unfold ProviderConfig.GetEnabledKeys
  rw [List.mem_filter, filter_cond_iff]

/-- Witness: in the over-budget-ledger scenario the candidate list is
non-empty, so the call does not fail with `NoCredentialsAvailable`. -/
theorem C5_candidate_resolution_amended_witness :
    (KeyRotator.GetNextKey c5Config c5Store NewKeyRotator "openai" 0 ⟨100, 1⟩).1
      ≠ .error .noEnabledKeys := by
  intro hcon
  have h := (C5_candidate_resolution_amended c5Config c5Store NewKeyRotator
    "openai" 0 ⟨100, 1⟩ _ rfl).1.mp hcon
  exact absurd h (by decide)

/-! ### Round-robin cycling (claim C3) -/

/-- The usage snapshot `GetNextKey` reports: the stored record, or the
zeroed default stamped `now`. -/
def usageSnap (st : MemoryKeyStore) (provider keyName : String) (now : GoTime) :
    KeyUsage :=
  match (st.GetUsage provider keyName).1 with
  | .ok u => u
  | .error _ => defaultUsage now

theorem selectRoundRobin_spec (kr : KeyRotator) (provider : String)
    (keys : List APIKey) (c : Nat)
    (hc : (mapLookup kr.rotationIdx provider).getD 0 = c) (hlt : c < keys.length) :
    kr.selectRoundRobin provider keys =
      (.picked (keys.get ⟨c, hlt⟩),
        { kr with rotationIdx := mapSet kr.rotationIdx provider ((c + 1) % keys.length) }) := by
  have hne : keys.isEmpty = false := by
    cases keys with
    | nil => cases hlt
    | cons a l => rfl
  unfold KeyRotator.selectRoundRobin
  rw [hne]
  simp only [Bool.false_eq_true, if_false, hc, List.get?_eq_get hlt]

theorem retrieveSelection_ok (st : MemoryKeyStore) (kr : KeyRotator)
    (provider : String) (selectedKey : APIKey) (strategy : String) (now : GoTime)
    (v : String) (hv : (st.GetKey provider selectedKey.Name).1 = .ok v) :
    retrieveSelection st kr provider selectedKey strategy now
      = (.ok { Provider := provider, KeyName := selectedKey.Name, Key := v
               RateLimit := selectedKey.RateLimit, CostLimit := selectedKey.CostLimit
               UsageCount := (usageSnap st provider selectedKey.Name now).UsageCount
               LastUsed := (usageSnap st provider selectedKey.Name now).LastUsed
               Strategy := strategy },
         st, kr.updateLastUsed provider selectedKey.Name now) := by
  have hkey : st.GetKey provider selectedKey.Name = (.ok v, st) := by
    have h : st.GetKey provider selectedKey.Name
        = ((st.GetKey provider selectedKey.Name).1,
           (st.GetKey provider selectedKey.Name).2) := rfl
    rw [hv, GetKey_snd] at h
    exact h
  have husage : st.GetUsage provider selectedKey.Name
      = ((st.GetUsage provider selectedKey.Name).1, st) := by
    have h : st.GetUsage provider selectedKey.Name
        = ((st.GetUsage provider selectedKey.Name).1,
           (st.GetUsage provider selectedKey.Name).2) := rfl
    rw [GetUsage_snd] at h
    exact h
  unfold retrieveSelection
  rw [hkey]
  dsimp only
  rw [husage]
  rfl

theorem finishSelection_ok (st : MemoryKeyStore) (kr : KeyRotator)
    (pc : ProviderConfig) (provider : String) (enabledKeys : List APIKey)
    (selectedKey : APIKey) (now : GoTime) (v : String)
    (hhc : pc.Rotation.HealthCheck = false ∨
      (st.IsHealthy provider selectedKey.Name).1 = .ok true)
    (hv : (st.GetKey provider selectedKey.Name).1 = .ok v) :
    finishSelection st kr pc provider enabledKeys selectedKey now
      = (.ok { Provider := provider, KeyName := selectedKey.Name, Key := v
               RateLimit := selectedKey.RateLimit, CostLimit := selectedKey.CostLimit
               UsageCount := (usageSnap st provider selectedKey.Name now).UsageCount
               LastUsed := (usageSnap st provider selectedKey.Name now).LastUsed
               Strategy := pc.Rotation.Strategy },
         st, kr.updateLastUsed provider selectedKey.Name now) := by
  unfold finishSelection
  rcases hhc with hno | hyes
  · rw [hno]
    simp only [Bool.false_eq_true, if_false]
    exact retrieveSelection_ok st kr provider selectedKey _ now v hv
  · have hih : st.IsHealthy provider selectedKey.Name = (.ok true, st) := by
      have h : st.IsHealthy provider selectedKey.Name
          = ((st.IsHealthy provider selectedKey.Name).1,
             (st.IsHealthy provider selectedKey.Name).2) := rfl
      rw [hyes, IsHealthy_snd] at h
      exact h
    cases hHC : pc.Rotation.HealthCheck with
    | false =>
      simp only [Bool.false_eq_true, if_false]
      exact retrieveSelection_ok st kr provider selectedKey _ now v hv
    | true =>
      simp only [if_true]
      rw [hih]
      exact retrieveSelection_ok st kr provider selectedKey _ now v hv

theorem GetNextKey_roundRobin_step (cfg : Config) (st : MemoryKeyStore)
    (kr : KeyRotator) (provider : String) (randChoice : Nat) (now : GoTime)
    (pc : ProviderConfig) (hpc : cfg.GetProvider provider = some pc)
    (hstrat : pc.Rotation.Strategy = RotationRoundRobin)
    (c : Nat) (hc : (mapLookup kr.rotationIdx provider).getD 0 = c)
    (hlt : c < pc.GetEnabledKeys.length)
    (hhc : pc.Rotation.HealthCheck = false ∨
      ∀ k ∈ pc.GetEnabledKeys, (st.IsHealthy provider k.Name).1 = .ok true)
    (hget : ∀ k ∈ pc.GetEnabledKeys, ∃ v, (st.GetKey provider k.Name).1 = .ok v) :
    ∃ sel kr₂,
      KeyRotator.GetNextKey cfg st kr provider randChoice now = (.ok sel, st, kr₂)
      ∧ sel.KeyName = (pc.GetEnabledKeys.get ⟨c, hlt⟩).Name
      ∧ (mapLookup kr₂.rotationIdx provider).getD 0
          = (c + 1) % pc.GetEnabledKeys.length := by
  have hne : pc.GetEnabledKeys.isEmpty = false := by
    cases h : pc.GetEnabledKeys with
    | nil => rw [h] at hlt; cases hlt
    | cons a l => rfl
  have hkmem : pc.GetEnabledKeys.get ⟨c, hlt⟩ ∈ pc.GetEnabledKeys := List.get_mem ..
  obtain ⟨v, hv⟩ := hget _ hkmem
  have hhc' : pc.Rotation.HealthCheck = false ∨
      (st.IsHealthy provider (pc.GetEnabledKeys.get ⟨c, hlt⟩).Name).1 = .ok true := by
    rcases hhc with h | h
    · exact Or.inl h
    · exact Or.inr (h _ hkmem)
  have hb1 : (pc.Rotation.Strategy == RotationLeastUsed) = false := by
    rw [hstrat]; decide
  have hb2 : (pc.Rotation.Strategy == RotationCostOptimized) = false := by
    rw [hstrat]; decide
  have hb3 : (pc.Rotation.Strategy == RotationRandom) = false := by
    rw [hstrat]; decide
  have hb4 : (pc.Rotation.Strategy == RotationSingle) = false := by
    rw [hstrat]; decide
  have hrr := selectRoundRobin_spec kr provider pc.GetEnabledKeys c hc hlt
  have hfin := finishSelection_ok st
    { kr with rotationIdx :=
        mapSet kr.rotationIdx provider ((c + 1) % pc.GetEnabledKeys.length) }
    pc provider pc.GetEnabledKeys (pc.GetEnabledKeys.get ⟨c, hlt⟩) now v hhc' hv
  let sel : KeySelection :=
    { Provider := provider, KeyName := (pc.GetEnabledKeys.get ⟨c, hlt⟩).Name
      Key := v, RateLimit := (pc.GetEnabledKeys.get ⟨c, hlt⟩).RateLimit
      CostLimit := (pc.GetEnabledKeys.get ⟨c, hlt⟩).CostLimit
      UsageCount :=
        (usageSnap st provider (pc.GetEnabledKeys.get ⟨c, hlt⟩).Name now).UsageCount
      LastUsed :=
        (usageSnap st provider (pc.GetEnabledKeys.get ⟨c, hlt⟩).Name now).LastUsed
      Strategy := pc.Rotation.Strategy }
  let kr₁ : KeyRotator :=
    { kr with rotationIdx :=
        mapSet kr.rotationIdx provider ((c + 1) % pc.GetEnabledKeys.length) }
  refine ⟨sel, kr₁.updateLastUsed provider (pc.GetEnabledKeys.get ⟨c, hlt⟩).Name now,
    ?_, rfl, ?_⟩
  · unfold KeyRotator.GetNextKey
    rw [hpc]
    dsimp only
    rw [hne]
    simp only [Bool.false_eq_true, if_false, hb1, hb2, hb3, hb4]
    rw [hrr]
    dsimp only
    rw [hfin]
  · unfold KeyRotator.updateLastUsed
    dsimp only
    exact congrArg (fun o => o.getD 0) (mapLookup_mapSet_self ..)

/-- One selection call, keeping only the state it leaves behind. -/
def rotationStep (cfg : Config) (provider : String) (randChoice : Nat) (now : GoTime)
    (s : MemoryKeyStore × KeyRotator) : MemoryKeyStore × KeyRotator :=
  (KeyRotator.GetNextKey cfg s.1 s.2 provider randChoice now).2

/-- The state after `i` consecutive selection calls. -/
def stateAfter (cfg : Config) (provider : String) (randChoice : Nat) (now : GoTime) :
    Nat → MemoryKeyStore × KeyRotator → MemoryKeyStore × KeyRotator
  | 0, s => s
  | i + 1, s =>
    rotationStep cfg provider randChoice now (stateAfter cfg provider randChoice now i s)

/-- The result of the `(i+1)`-th consecutive call (0-indexed `i`). -/
def selectionAt (cfg : Config) (provider : String) (randChoice : Nat) (now : GoTime)
    (s : MemoryKeyStore × KeyRotator) (i : Nat) : Except RotErr KeySelection :=
  (KeyRotator.GetNextKey cfg (stateAfter cfg provider randChoice now i s).1
    (stateAfter cfg provider randChoice now i s).2 provider randChoice now).1

theorem stateAfter_inv (cfg : Config) (st : MemoryKeyStore) (kr : KeyRotator)
    (provider : String) (randChoice : Nat) (now : GoTime) (pc : ProviderConfig)
    (hpc : cfg.GetProvider provider = some pc)
    (hstrat : pc.Rotation.Strategy = RotationRoundRobin)
    (c : Nat) (hc : (mapLookup kr.rotationIdx provider).getD 0 = c)
    (hlt : c < pc.GetEnabledKeys.length)
    (hhc : pc.Rotation.HealthCheck = false ∨
      ∀ k ∈ pc.GetEnabledKeys, (st.IsHealthy provider k.Name).1 = .ok true)
    (hget : ∀ k ∈ pc.GetEnabledKeys, ∃ v, (st.GetKey provider k.Name).1 = .ok v) :
    ∀ i, (stateAfter cfg provider randChoice now i (st, kr)).1 = st ∧
      (mapLookup (stateAfter cfg provider randChoice now i (st, kr)).2.rotationIdx
        provider).getD 0 = (c + i) % pc.GetEnabledKeys.length := by
  have hNpos : 0 < pc.GetEnabledKeys.length := lt_of_le_of_lt (Nat.zero_le c) hlt
  intro i
  induction i with
  | zero =>
    refine ⟨rfl, ?_⟩
    rw [Nat.add_zero, Nat.mod_eq_of_lt hlt]
    exact hc
  | succ i ih =>
    obtain ⟨hst, hcur⟩ := ih
    have hlt' : (c + i) % pc.GetEnabledKeys.length < pc.GetEnabledKeys.length :=
      Nat.mod_lt _ hNpos
    obtain ⟨sel, kr₂, hrun, _, hcur'⟩ :=
      GetNextKey_roundRobin_step cfg st
        (stateAfter cfg provider randChoice now i (st, kr)).2 provider randChoice now
        pc hpc hstrat ((c + i) % pc.GetEnabledKeys.length) hcur hlt' hhc hget
    constructor
    · show (rotationStep cfg provider randChoice now
        (stateAfter cfg provider randChoice now i (st, kr))).1 = st
      unfold rotationStep
      rw [hst, hrun]
    · show (mapLookup (rotationStep cfg provider randChoice now
          (stateAfter cfg provider randChoice now i (st, kr))).2.rotationIdx
        provider).getD 0 = (c + (i + 1)) % pc.GetEnabledKeys.length
      unfold rotationStep
      rw [hst, hrun]
      show (mapLookup kr₂.rotationIdx provider).getD 0
        = (c + (i + 1)) % pc.GetEnabledKeys.length
      rw [hcur', Nat.mod_add_mod, Nat.add_assoc]

/-- C3: with the round-robin strategy, health-checking disabled (or every
candidate healthy), key values retrievable, and the provider's cursor at
`c < N` (`N` the number of enabled credentials), (a) the `(i+1)`-th of a
run of consecutive `GetNextKey` calls succeeds and returns the credential
at index `(c + i) mod N`; (b) the names of the first `N` calls are exactly
the enabled names in configuration order rotated to start at the cursor —
each credential exactly once; (c) the `(N+1)`-th call repeats the first.
The cursor advances to `(cursor + 1) mod N` on each call
(`stateAfter_inv`). -/
theorem C3_roundRobin_cycle (cfg : Config) (st : MemoryKeyStore) (kr : KeyRotator)
    (provider : String) (randChoice : Nat) (now : GoTime) (pc : ProviderConfig)
    (hpc : cfg.GetProvider provider = some pc)
    (hstrat : pc.Rotation.Strategy = RotationRoundRobin)
    (c : Nat) (hc : (mapLookup kr.rotationIdx provider).getD 0 = c)
    (hlt : c < pc.GetEnabledKeys.length)
    (hhc : pc.Rotation.HealthCheck = false ∨
      ∀ k ∈ pc.GetEnabledKeys, (st.IsHealthy provider k.Name).1 = .ok true)
    (hget : ∀ k ∈ pc.GetEnabledKeys, ∃ v, (st.GetKey provider k.Name).1 = .ok v) :
    (∀ i, ∃ sel k, selectionAt cfg provider randChoice now (st, kr) i = .ok sel
        ∧ pc.GetEnabledKeys.get? ((c + i) % pc.GetEnabledKeys.length) = some k
        ∧ sel.KeyName = k.Name)
    ∧ (List.range pc.GetEnabledKeys.length).map
          (fun i => (selectionAt cfg provider randChoice now (st, kr) i).map
            fun sel => sel.KeyName)
        = ((pc.GetEnabledKeys.map APIKey.Name).rotate c).map Except.ok
    ∧ (selectionAt cfg provider randChoice now (st, kr)
          pc.GetEnabledKeys.length).map (fun sel => sel.KeyName)
        = (selectionAt cfg provider randChoice now (st, kr) 0).map
            fun sel => sel.KeyName := by
  have hNpos : 0 < pc.GetEnabledKeys.length := lt_of_le_of_lt (Nat.zero_le c) hlt
  have hmain : ∀ i, ∃ sel k,
      selectionAt cfg provider randChoice now (st, kr) i = .ok sel
      ∧ pc.GetEnabledKeys.get? ((c + i) % pc.GetEnabledKeys.length) = some k
      ∧ sel.KeyName = k.Name := by
    intro i
    obtain ⟨hst, hcur⟩ := stateAfter_inv cfg st kr provider randChoice now pc hpc
      hstrat c hc hlt hhc hget i
    have hlt' : (c + i) % pc.GetEnabledKeys.length < pc.GetEnabledKeys.length :=
      Nat.mod_lt _ hNpos
    obtain ⟨sel, kr₂, hrun, hname, _⟩ :=
      GetNextKey_roundRobin_step cfg st
        (stateAfter cfg provider randChoice now i (st, kr)).2 provider randChoice now
        pc hpc hstrat ((c + i) % pc.GetEnabledKeys.length) hcur hlt' hhc hget
    refine ⟨sel, pc.GetEnabledKeys.get ⟨(c + i) % pc.GetEnabledKeys.length, hlt'⟩,
      ?_, List.get?_eq_get hlt', hname⟩
    unfold selectionAt
    rw [hst, hrun]
  refine ⟨hmain, ?_, ?_⟩
  · apply List.ext
    intro n
    by_cases hn : n < pc.GetEnabledKeys.length
    · obtain ⟨sel, k, hsel, hk, hkn⟩ := hmain n
      rw [List.get?_map, List.get?_range hn, List.get?_map, List.get?_rotate]
      · rw [List.length_map, Nat.add_comm n c]
        rw [List.get?_map, hk]
        simp only [Option.map_some']
        rw [hsel]
        show some (Except.ok sel.KeyName) = some (Except.ok k.Name)
        rw [hkn]
      · rw [List.length_map]
        exact hn
    · have h1 : ((List.range pc.GetEnabledKeys.length).map
          (fun i => (selectionAt cfg provider randChoice now (st, kr) i).map
            fun sel => sel.KeyName)).get? n = none := by
        rw [List.get?_eq_none]
        rw [List.length_map, List.length_range]
        omega
      have h2 : (((pc.GetEnabledKeys.map APIKey.Name).rotate c).map
            (Except.ok : String → Except RotErr String)).get? n
          = none := by
        rw [List.get?_eq_none]
        rw [List.length_map, List.length_rotate, List.length_map]
        omega
      rw [h1, h2]
  · obtain ⟨selN, kN, hselN, hkN, hknN⟩ := hmain pc.GetEnabledKeys.length
    obtain ⟨sel0, k0, hsel0, hk0, hkn0⟩ := hmain 0
    have hidx : (c + pc.GetEnabledKeys.length) % pc.GetEnabledKeys.length
        = (c + 0) % pc.GetEnabledKeys.length := by
      rw [Nat.add_mod_right, Nat.add_zero]
    rw [hidx] at hkN
    rw [hkN] at hk0
    injection hk0 with hkk
    rw [hselN, hsel0]
    show Except.ok selN.KeyName = Except.ok sel0.KeyName
    rw [hknN, hkn0, hkk]

/-- Round-robin provider config with health-checking off. -/
def c3pc : ProviderConfig :=
  { APIKeys := [exKeyA, exKeyB]
    Rotation :=
      { Strategy := RotationRoundRobin, Interval := ""
        HealthCheck := false, FallbackEnabled := false } }

/-- Config carrying `c3pc` as provider `openai`. -/
def c3Config : Config := { Providers := [("openai", c3pc)] }

/-- Witness: over two credentials, the third consecutive round-robin
selection repeats the first. -/
theorem C3_roundRobin_cycle_witness :
    (selectionAt c3Config "openai" 0 ⟨100, 1⟩ (c1Store, NewKeyRotator) 2).map
        (fun sel => sel.KeyName)
      = (selectionAt c3Config "openai" 0 ⟨100, 1⟩ (c1Store, NewKeyRotator) 0).map
          (fun sel => sel.KeyName) := by
  have henabled : c3pc.GetEnabledKeys = [exKeyA, exKeyB] := by decide
  have h := C3_roundRobin_cycle c3Config c1Store NewKeyRotator "openai" 0 ⟨100, 1⟩
    c3pc rfl rfl 0 rfl (by decide) (Or.inl rfl)
    (by
      intro k hk
      rw [henabled] at hk
      rcases List.mem_cons.mp hk with h1 | h1
      · subst h1
        exact ⟨"sk-a", by decide⟩
      · rcases List.mem_cons.mp h1 with h2 | h2
        · subst h2
          exact ⟨"sk-b", by decide⟩
        · cases h2)
  exact h.2.2

/-! ### Error-count health threshold (claim C6) -/

/-- `k` consecutive `RecordError` calls for the same credential. -/
def recordErrors (m : MemoryKeyStore) (provider keyName errorMsg : String) :
    Nat → MemoryKeyStore
  | 0 => m
  | k + 1 =>
    ((recordErrors m provider keyName errorMsg k).RecordError
      provider keyName errorMsg).2

theorem RecordError_eq (m : MemoryKeyStore) (p n msg : String)
    (pu : List (String × KeyUsage)) (u : KeyUsage) (ph : List (String × Bool))
    (hpu : mapLookup m.usage p = some pu) (hu : mapLookup pu n = some u)
    (hph : mapLookup m.health p = some ph) :
    (m.RecordError p n msg).2 =
      (if 5 < u.ErrorCount + 1 then
        { m with
          usage := mapSet m.usage p
            (mapSet pu n { u with ErrorCount := u.ErrorCount + 1, LastError := msg })
          health := mapSet m.health p (mapSet ph n false) }
      else
        { m with
          usage := mapSet m.usage p
            (mapSet pu n { u with ErrorCount := u.ErrorCount + 1, LastError := msg }) }) := by
  unfold MemoryKeyStore.RecordError
  simp only [hpu, hu]
  split
  · simp only [hph]
  · rfl

theorem recordErrors_state (m : MemoryKeyStore) (p n msg : String)
    (pu : List (String × KeyUsage)) (u : KeyUsage) (ph : List (String × Bool))
    (hpu : mapLookup m.usage p = some pu) (hu : mapLookup pu n = some u)
    (hEC : u.ErrorCount = 0)
    (hph : mapLookup m.health p = some ph) (hb : mapLookup ph n = some true) :
    ∀ k, ∃ pu' ph',
      mapLookup (recordErrors m p n msg k).usage p = some pu'
      ∧ mapLookup pu' n = some { u with
          ErrorCount := (k : Int),
          LastError := if k = 0 then u.LastError else msg }
      ∧ mapLookup (recordErrors m p n msg k).health p = some ph'
      ∧ mapLookup ph' n = some (decide ((k : Int) ≤ 5)) := by
  intro k
  induction k with
  | zero =>
    refine ⟨pu, ph, hpu, ?_, hph, ?_⟩
    · rw [hu]
      have hrec : ({ u with
          ErrorCount := ((0 : Nat) : Int),
          LastError := if (0 : Nat) = 0 then u.LastError else msg } : KeyUsage) = u := by
        rw [if_pos rfl, show ((0 : Nat) : Int) = u.ErrorCount from by omega]
      rw [hrec]
    · rw [hb]
      simp
  | succ k ih =>
    obtain ⟨pu', ph', hpu', hu', hph', hb'⟩ := ih
    have hstep := RecordError_eq (recordErrors m p n msg k) p n msg pu'
      { u with
        ErrorCount := (k : Int),
        LastError := if k = 0 then u.LastError else msg }
      ph' hpu' hu' hph'
    have hcast : ((k : Int) + 1) = ((k + 1 : Nat) : Int) := by push_cast; ring
    simp only [recordErrors]
    rw [hstep]
    dsimp only
    rw [hcast]
    split
    · rename_i hover
      refine ⟨_, _, mapLookup_mapSet_self .., ?_, mapLookup_mapSet_self .., ?_⟩
      · rw [mapLookup_mapSet_self, if_neg (Nat.succ_ne_zero k)]
      · rw [mapLookup_mapSet_self]
        have hnle : ¬(((k + 1 : Nat) : Int) ≤ 5) := by
          push_cast at hover ⊢
          omega
        simp [hnle] <;> push_cast at hover ⊢ <;> omega
    · rename_i hover
      refine ⟨_, ph', mapLookup_mapSet_self .., ?_, hph', ?_⟩
      · rw [mapLookup_mapSet_self, if_neg (Nat.succ_ne_zero k)]
      · rw [hb']
        have h1 : ((k : Nat) : Int) ≤ 5 := by
          push_cast at hover ⊢
          omega
        have h2 : (((k + 1 : Nat)) : Int) ≤ 5 := by
          push_cast at hover ⊢
          omega
        simp [h1, h2] <;> push_cast at hover ⊢ <;> omega

/-- C6: starting from a stored credential with zero error count and a
healthy flag, the credential is still healthy after five recorded errors,
flips to unhealthy on the sixth (error count exceeds the fixed threshold
5), and a subsequent successful probe (`SetHealth true`, as written by
`performHealthCheck` on a valid result) flips it back to healthy. -/
theorem C6_six_errors_flip_health (m : MemoryKeyStore) (p n msg : String)
    (pu : List (String × KeyUsage)) (u : KeyUsage) (ph : List (String × Bool))
    (hpu : mapLookup m.usage p = some pu) (hu : mapLookup pu n = some u)
    (hEC : u.ErrorCount = 0)
    (hph : mapLookup m.health p = some ph) (hb : mapLookup ph n = some true) :
    (∀ k, k ≤ 5 → ((recordErrors m p n msg k).IsHealthy p n).1 = .ok true)
    ∧ ((recordErrors m p n msg 6).IsHealthy p n).1 = .ok false
    ∧ (((recordErrors m p n msg 6).SetHealth p n true).2.IsHealthy p n).1
        = .ok true := by
  have hstate := recordErrors_state m p n msg pu u ph hpu hu hEC hph hb
  have hhealth : ∀ k, ((recordErrors m p n msg k).IsHealthy p n).1
      = .ok (decide ((k : Int) ≤ 5)) := by
    intro k
    obtain ⟨pu', ph', _, _, hph', hb'⟩ := hstate k
    unfold MemoryKeyStore.IsHealthy
    simp only [hph', hb']
  refine ⟨?_, ?_, ?_⟩
  · intro k hk
    rw [hhealth k]
    congr 1
    have : (k : Int) ≤ 5 := by omega
    simp [this]
  · rw [hhealth 6]
    norm_num
  · obtain ⟨pu', ph', _, _, hph', _⟩ := hstate 6
    unfold MemoryKeyStore.SetHealth
    simp only [hph']
    unfold MemoryKeyStore.IsHealthy
    simp only [mapLookup_mapSet_self]

/-- Witness for C6: the concrete credential `a` in `c2Store` is healthy
after 5 errors, unhealthy after 6, healthy again after a valid probe. -/
theorem C6_six_errors_flip_health_witness :
    ((recordErrors c2Store "openai" "a" "boom" 5).IsHealthy "openai" "a").1 = .ok true
    ∧ ((recordErrors c2Store "openai" "a" "boom" 6).IsHealthy "openai" "a").1
        = .ok false
    ∧ (((recordErrors c2Store "openai" "a" "boom" 6).SetHealth "openai" "a"
          true).2.IsHealthy "openai" "a").1 = .ok true := by
  have h := C6_six_errors_flip_health c2Store "openai" "a" "boom"
    [("a", c2Usage)] c2Usage [("a", true)] rfl rfl rfl rfl rfl
  exact ⟨h.1 5 (by norm_num), h.2.1, h.2.2⟩

/-! ### Sealing round-trip (claim C8) -/

theorem bytesStr_strBytes (s : String) : bytesStr (strBytes s) = s := by
  cases s with
  | mk data =>
    simp only [strBytes, bytesStr, List.map_map]
    congr 1
    induction data with
    | nil => rfl
    | cons c t ih => simp [ih, Char.ofNat_toNat]

theorem gcmOpen_gcmSeal (key nonce body : List Nat) :
    gcmOpen key nonce (gcmSeal key nonce body) = some body := by
  simp [gcmOpen, gcmSeal, List.getLast?_concat, List.dropLast_concat]

theorem gcmOpen_eq_some (key nonce d b : List Nat)
    (h : gcmOpen key nonce d = some b) : d = gcmSeal key nonce b := by
  unfold gcmOpen at h
  cases hl : d.getLast? with
  | none =>
    rw [hl] at h
    cases h
  | some tag =>
    rw [hl] at h
    dsimp only at h
    split at h
    · rename_i htag
      injection h with hb
      subst hb
      have hne : d ≠ [] := by
        intro hcon
        rw [hcon] at hl
        cases hl
      have h2 : d.getLast? = some (d.getLast hne) := List.getLast?_eq_getLast d hne
      rw [hl] at h2
      injection h2 with h3
      calc d = d.dropLast ++ [d.getLast hne] := (List.dropLast_append_getLast hne).symm
        _ = d.dropLast ++ [tag] := by rw [h3]
        _ = gcmSeal key nonce d.dropLast := by rw [gcmSeal, htag]
    · cases h

/-- C8: sealing round-trip — decrypting the encryption of any non-empty
string with the same key and a fresh 12-byte nonce returns the string;
any input shorter than the nonce size is rejected with the
"ciphertext too short" error rather than processed; and decryption
succeeds only on a genuinely sealed blob (nonce followed by an
authenticated body), so a corrupted or truncated input — anything not of
that shape — fails with a decryption error. -/
theorem C8_seal_unseal_roundtrip :
    (∀ (e : KeyEncryptor) (nonce : List Nat) (pt : String),
      pt ≠ "" → nonce.length = gcmNonceSize →
      e.Decrypt (e.Encrypt nonce pt) = .ok pt)
    ∧ (∀ (e : KeyEncryptor) (data : List Nat), data.length < gcmNonceSize →
        e.Decrypt data = .error "ciphertext too short")
    ∧ (∀ (e : KeyEncryptor) (data : List Nat) (pt : String),
        e.Decrypt data = .ok pt →
        ∃ body, data = data.take gcmNonceSize
            ++ gcmSeal e.key (data.take gcmNonceSize) body
          ∧ pt = bytesStr body) := by
  refine ⟨?_, ?_, ?_⟩
  · intro e nonce pt _ hlen
    unfold KeyEncryptor.Decrypt KeyEncryptor.Encrypt
    have hlen2 : ¬((nonce ++ gcmSeal e.key nonce (strBytes pt)).length < gcmNonceSize) := by
      rw [List.length_append, hlen]
      omega
    rw [if_neg hlen2]
    have htake : (nonce ++ gcmSeal e.key nonce (strBytes pt)).take gcmNonceSize
        = nonce := by
      rw [← hlen]
      exact List.take_left ..
    have hdrop : (nonce ++ gcmSeal e.key nonce (strBytes pt)).drop gcmNonceSize
        = gcmSeal e.key nonce (strBytes pt) := by
      rw [← hlen]
      exact List.drop_left ..
    rw [htake, hdrop, gcmOpen_gcmSeal]
    dsimp only
    rw [bytesStr_strBytes]
  · intro e data h
    unfold KeyEncryptor.Decrypt
    rw [if_pos h]
  · intro e data pt h
    unfold KeyEncryptor.Decrypt at h
    split at h
    · cases h
    · cases hg : gcmOpen e.key (data.take gcmNonceSize) (data.drop gcmNonceSize) with
      | none =>
        rw [hg] at h
        cases h
      | some body =>
        rw [hg] at h
        injection h with h'
        refine ⟨body, ?_, h'.symm⟩
        calc data = data.take gcmNonceSize ++ data.drop gcmNonceSize :=
              (List.take_append_drop ..).symm
          _ = data.take gcmNonceSize
              ++ gcmSeal e.key (data.take gcmNonceSize) body := by
            rw [gcmOpen_eq_some _ _ _ _ hg]

/-- The encryptor with the all-empty (test) key . -/
def c8Enc : KeyEncryptor := ⟨[]⟩

/-- A concrete 12-byte nonce. -/
def c8Nonce : List Nat := List.replicate 12 0

/-- Witness: concrete round-trip of `sk-a` and rejection of a 3-byte
input. -/
theorem C8_seal_unseal_roundtrip_witness :
    c8Enc.Decrypt (c8Enc.Encrypt c8Nonce "sk-a") = .ok "sk-a"
    ∧ c8Enc.Decrypt [1, 2, 3] = .error "ciphertext too short" :=
  ⟨C8_seal_unseal_roundtrip.1 c8Enc c8Nonce "sk-a" (by decide) (by decide),
   C8_seal_unseal_roundtrip.2.1 c8Enc [1, 2, 3] (by decide)⟩

/-! ### Store/delete keep the three maps aligned (claim C9) -/

/-- The store and delete operations of the claim. -/
inductive StoreOp where
  | store (provider keyName key : String) (now : GoTime) (nonce : List Nat)
  | del (provider keyName : String)
deriving DecidableEq, Repr

/-- Apply one operation, keeping the resulting store. -/
def applyStoreOp (m : MemoryKeyStore) : StoreOp → MemoryKeyStore
  | .store p n k t nc => (m.StoreKey p n k t nc).2
  | .del p n => (m.DeleteKey p n).2

/-- Run a sequence of operations from a fresh store. -/
def runStoreOps (enc : Option KeyEncryptor) (ops : List StoreOp) : MemoryKeyStore :=
  ops.foldl applyStoreOp (NewMemoryKeyStore enc)

/-- The credential-name list of a provider's inner map, if the provider is
present. -/
def innerNames {α : Type} (outer : List (String × List (String × α)))
    (p : String) : Option (List String) :=
  (mapLookup outer p).map fun im => im.map Prod.fst

/-- The three maps of the store are keyed, provider by provider, by the
same credential names. -/
def mapsAligned (m : MemoryKeyStore) : Prop :=
  ∀ p, innerNames m.keys p = innerNames m.usage p
    ∧ innerNames m.keys p = innerNames m.health p

/-- The name list produced by a Go map assignment. -/
def insertName : List String → String → List String
  | [], key => [key]
  | a :: rest, key => if a = key then a :: rest else a :: insertName rest key

/-- The name list produced by a Go map delete. -/
def eraseName : List String → String → List String
  | [], _ => []
  | a :: rest, key => if a = key then rest else a :: eraseName rest key

theorem mapSet_names {α : Type} :
    ∀ (im : List (String × α)) (k : String) (v : α),
      (mapSet im k v).map Prod.fst = insertName (im.map Prod.fst) k := by
  intro im
  induction im with
  | nil => intro k v; rfl
  | cons hd tl ih =>
    intro k v
    obtain ⟨a, w⟩ := hd
    by_cases h : a = k <;> simp [mapSet, insertName, h, ih]

theorem mapErase_names {α : Type} :
    ∀ (im : List (String × α)) (k : String),
      (mapErase im k).map Prod.fst = eraseName (im.map Prod.fst) k := by
  intro im
  induction im with
  | nil => intro k; rfl
  | cons hd tl ih =>
    intro k
    obtain ⟨a, w⟩ := hd
    by_cases h : a = k <;> simp [mapErase, eraseName, h, ih]

theorem innerNames_mapSet_self {α : Type}
    (outer : List (String × List (String × α))) (p : String)
    (im : List (String × α)) :
    innerNames (mapSet outer p im) p = some (im.map Prod.fst) := by
  unfold innerNames
  rw [mapLookup_mapSet_self]
  rfl

theorem innerNames_mapSet_ne {α : Type}
    (outer : List (String × List (String × α))) (p q : String)
    (im : List (String × α)) (h : p ≠ q) :
    innerNames (mapSet outer p im) q = innerNames outer q := by
  unfold innerNames
  rw [mapLookup_mapSet_ne _ _ _ _ h]

theorem aligned_new (enc : Option KeyEncryptor) :
    mapsAligned (NewMemoryKeyStore enc) := by
  intro p
  exact ⟨rfl, rfl⟩

theorem aligned_StoreKey (m : MemoryKeyStore) (p n k : String) (t : GoTime)
    (nc : List Nat) (hal : mapsAligned m) :
    mapsAligned (m.StoreKey p n k t nc).2 := by
  unfold MemoryKeyStore.StoreKey
  cases h0 : mapLookup m.keys p with
  | none =>
    dsimp only
    intro q
    by_cases hq : q = p
    · subst hq
      simp only [mapLookup_mapSet_self, Option.getD_some]
      rw [innerNames_mapSet_self, innerNames_mapSet_self, innerNames_mapSet_self]
      exact ⟨rfl, rfl⟩
    · have hq' : p ≠ q := fun hc => hq hc.symm
      rw [innerNames_mapSet_ne _ _ _ _ hq', innerNames_mapSet_ne _ _ _ _ hq',
        innerNames_mapSet_ne _ _ _ _ hq', innerNames_mapSet_ne _ _ _ _ hq',
        innerNames_mapSet_ne _ _ _ _ hq', innerNames_mapSet_ne _ _ _ _ hq']
      exact hal q
  | some pk =>
    dsimp only
    have h1 := (hal p).1
    have h2 := (hal p).2
    unfold innerNames at h1 h2
    rw [h0] at h1 h2
    intro q
    by_cases hq : q = p
    · subst hq
      cases hu : mapLookup m.usage q with
      | none => rw [hu] at h1; cases h1
      | some pu =>
        cases hh : mapLookup m.health q with
        | none => rw [hh] at h2; cases h2
        | some ph =>
          rw [hu] at h1
          rw [hh] at h2
          simp only [Option.map_some'] at h1 h2
          injection h1 with h1'
          injection h2 with h2'
          dsimp only
          simp only [h0, hu, hh, Option.getD_some]
          rw [innerNames_mapSet_self, innerNames_mapSet_self, innerNames_mapSet_self]
          rw [mapSet_names, mapSet_names, mapSet_names, h1']
          exact ⟨rfl, by rw [h1'.symm.trans h2']⟩
    · have hq' : p ≠ q := fun hc => hq hc.symm
      dsimp only
      rw [innerNames_mapSet_ne _ _ _ _ hq', innerNames_mapSet_ne _ _ _ _ hq',
        innerNames_mapSet_ne _ _ _ _ hq']
      exact hal q

theorem aligned_DeleteKey (m : MemoryKeyStore) (p n : String)
    (hal : mapsAligned m) : mapsAligned (m.DeleteKey p n).2 := by
  unfold MemoryKeyStore.DeleteKey
  cases h0 : mapLookup m.keys p with
  | none => exact hal
  | some pk =>
    have h1 := (hal p).1
    have h2 := (hal p).2
    unfold innerNames at h1 h2
    rw [h0] at h1 h2
    cases hu : mapLookup m.usage p with
    | none => rw [hu] at h1; cases h1
    | some pu =>
      cases hh : mapLookup m.health p with
      | none => rw [hh] at h2; cases h2
      | some ph =>
        rw [hu] at h1
        rw [hh] at h2
        simp only [Option.map_some'] at h1 h2
        injection h1 with h1'
        injection h2 with h2'
        dsimp only
        intro q
        by_cases hq : q = p
        · subst hq
          rw [innerNames_mapSet_self, innerNames_mapSet_self, innerNames_mapSet_self]
          rw [mapErase_names, mapErase_names, mapErase_names, h1']
          exact ⟨rfl, by rw [h1'.symm.trans h2']⟩
        · have hq' : p ≠ q := fun hc => hq hc.symm
          rw [innerNames_mapSet_ne _ _ _ _ hq', innerNames_mapSet_ne _ _ _ _ hq',
            innerNames_mapSet_ne _ _ _ _ hq']
          exact hal q

theorem aligned_apply (m : MemoryKeyStore) (op : StoreOp) (hal : mapsAligned m) :
    mapsAligned (applyStoreOp m op) := by
  cases op with
  | store p n k t nc => exact aligned_StoreKey m p n k t nc hal
  | del p n => exact aligned_DeleteKey m p n hal

theorem aligned_foldl :
    ∀ (ops : List StoreOp) (m : MemoryKeyStore), mapsAligned m →
      mapsAligned (ops.foldl applyStoreOp m) := by
  intro ops
  induction ops with
  | nil => intro m hal; exact hal
  | cons op rest ih =>
    intro m hal
    exact ih _ (aligned_apply m op hal)

theorem mapLookup_isSome_iff {α : Type} :
    ∀ (im : List (String × α)) (n : String),
      (mapLookup im n).isSome = true ↔ n ∈ im.map Prod.fst := by
  intro im
  induction im with
  | nil => intro n; simp [mapLookup]
  | cons hd tl ih =>
    intro n
    obtain ⟨a, w⟩ := hd
    by_cases h : a = n
    · simp [mapLookup, h]
    · simp only [mapLookup, List.map_cons, List.mem_cons, if_neg h, ih]
      constructor
      · intro hm; exact Or.inr hm
      · intro hm
        cases hm with
        | inl he => exact absurd he.symm h
        | inr hm => exact hm

theorem bind_isSome_of_innerNames_eq {α β : Type}
    (o₁ : List (String × List (String × α))) (o₂ : List (String × List (String × β)))
    (p n : String) (h : innerNames o₁ p = innerNames o₂ p) :
    ((mapLookup o₁ p).bind fun im => mapLookup im n).isSome
      = ((mapLookup o₂ p).bind fun im => mapLookup im n).isSome := by
  unfold innerNames at h
  cases h1 : mapLookup o₁ p with
  | none =>
    cases h2 : mapLookup o₂ p with
    | none => rfl
    | some im₂ =>
      rw [h1, h2] at h
      cases h
  | some im₁ =>
    cases h2 : mapLookup o₂ p with
    | none =>
      rw [h1, h2] at h
      cases h
    | some im₂ =>
      rw [h1, h2] at h
      simp only [Option.map_some'] at h
      injection h with h'
      simp only [Option.some_bind]
      cases hb1 : (mapLookup im₁ n).isSome with
      | true =>
        rw [mapLookup_isSome_iff, h'] at hb1
        rw [(mapLookup_isSome_iff im₂ n).mpr hb1]
      | false =>
        cases hb2 : (mapLookup im₂ n).isSome with
        | true =>
          rw [mapLookup_isSome_iff, ← h'] at hb2
          rw [(mapLookup_isSome_iff im₁ n).mpr hb2] at hb1
          cases hb1
        | false => rfl

/-- C9: after every sequence of store and delete operations from a fresh
store, the keys, usage, and health maps are keyed by exactly the same
credential names — `StoreKey` creates all three entries together and
`DeleteKey` removes all three together, so no credential can have a key
entry without a usage or health entry or vice versa. -/
theorem C9_three_maps_aligned (enc : Option KeyEncryptor) (ops : List StoreOp)
    (p n : String) :
    mapsAligned (runStoreOps enc ops)
    ∧ ((mapLookup (runStoreOps enc ops).keys p).bind
          fun im => mapLookup im n).isSome
        = ((mapLookup (runStoreOps enc ops).usage p).bind
            fun im => mapLookup im n).isSome
    ∧ ((mapLookup (runStoreOps enc ops).keys p).bind
          fun im => mapLookup im n).isSome
        = ((mapLookup (runStoreOps enc ops).health p).bind
            fun im => mapLookup im n).isSome := by
  have hal : mapsAligned (runStoreOps enc ops) :=
    aligned_foldl ops (NewMemoryKeyStore enc) (aligned_new enc)
  exact ⟨hal,
    bind_isSome_of_innerNames_eq _ _ p n (hal p).1,
    bind_isSome_of_innerNames_eq _ _ p n (hal p).2⟩

/-! ### Key selection never touches the stored usage records (claim C10) -/

/-- C10: `GetNextKey` returns the key store unchanged — in particular every
stored usage record (request count, tokens, cumulative cost, daily cost,
error count, stored last-used timestamp) and every health flag read back
through `GetUsage` and `IsHealthy` is identical before and after the call,
whether the call succeeds or fails; only the rotator's internal last-used
map and rotation cursor change. -/
theorem C10_selection_preserves_usage (cfg : Config) (st : MemoryKeyStore)
    (kr : KeyRotator) (provider : String) (randChoice : Nat) (now : GoTime) :
    (KeyRotator.GetNextKey cfg st kr provider randChoice now).2.1 = st
    ∧ (∀ p n,
        ((KeyRotator.GetNextKey cfg st kr provider randChoice now).2.1.GetUsage
            p n).1
          = (st.GetUsage p n).1)
    ∧ (∀ p n,
        ((KeyRotator.GetNextKey cfg st kr provider randChoice now).2.1.IsHealthy
            p n).1
          = (st.IsHealthy p n).1) := by
  have h := GetNextKey_store cfg st kr provider randChoice now
  exact ⟨h, fun p n => by rw [h], fun p n => by rw [h]⟩

end GoLLMKit
